import Mathlib

/-!
Shallow embedding of the RetroEdit text-buffer engine
(`retroedit/editor.py`, `retroedit/fileio.py`, `retroedit/config.py`).

Conventions used throughout:
* a Python `str` is modelled as `List Char`; rows and columns are `Nat`
  (the code only ever stores non-negative values in them; the two methods
  that accept possibly negative arguments, `set_cursor_position` and
  `move_cursor`, take `Int` arguments and clamp exactly as the source does);
* the Python lists used as undo/redo stacks grow at the *end* (`append`,
  `pop()`), and evict the oldest entry at the *front* (`pop(0)`); here the
  stack top is the *head* of the Lean list, so push is `cons` and eviction
  of the oldest entry is `dropLast` — an order-reversing but faithful
  representation of the same stack;
* the global `config.insert_mode` flag read by `insert_char` is passed as an
  explicit argument, and `config.line_ending` / `config.encoding` are passed
  to the save pipeline, per the configuration surface described for the code;
* fields of `TextBuffer` that no claim observes (`file_path`, `encoding`,
  `last_search`, `last_replace`) are omitted from the state.
-/

/-- Python `c` is a line-break character for `str.splitlines`:
LF, CR, VT, FF, FS, GS, RS, NEL, LINE SEPARATOR, PARAGRAPH SEPARATOR. -/
def isLineBreak (c : Char) : Bool :=
  c.toNat = 10 ∨ c.toNat = 13 ∨ c.toNat = 11 ∨ c.toNat = 12 ∨ c.toNat = 28 ∨
    c.toNat = 29 ∨ c.toNat = 30 ∨ c.toNat = 133 ∨ c.toNat = 8232 ∨ c.toNat = 8233

/-- Leftmost index of `s` at which `pat` occurs (as a contiguous sublist),
scanning from the left; `none` when there is no occurrence.  This is the
kernel of Python `str.find`. -/
def firstMatch (pat : List Char) : List Char → Option Nat
  | [] => if pat.isPrefixOf ([] : List Char) then some 0 else none
  | c :: rest =>
    if pat.isPrefixOf (c :: rest) then some 0
    else (firstMatch pat rest).map (· + 1)

/-- Python `s.find(pat, start)` for a non-negative `start`: leftmost
occurrence index that is `≥ start`, or `none` (Python returns `-1`). -/
def pyFind (s pat : List Char) (start : Nat) : Option Nat :=
  (firstMatch pat (s.drop start)).map (· + start)

/-- Python `pat in s` (membership as contiguous substring). -/
def containsSub (s pat : List Char) : Bool :=
  (firstMatch pat s).isSome

/-- Worker for `pyReplace`, structurally recursive on `fuel`, which is
always called with `s.length` and only bounds the loop: every step consumes
at least one character of `s`. -/
def pyReplaceGo (pat rep : List Char) : Nat → List Char → List Char
  | _, [] => []
  | 0, l => l
  | fuel + 1, c :: rest =>
    if pat ≠ [] ∧ pat.isPrefixOf (c :: rest) then
      rep ++ pyReplaceGo pat rep fuel ((c :: rest).drop pat.length)
    else
      c :: pyReplaceGo pat rep fuel rest

/-- Python `s.replace(pat, rep)` for non-empty `pat`: replace the
non-overlapping occurrences of `pat`, scanning left to right and never
rescanning the text just substituted. -/
def pyReplace (s pat rep : List Char) : List Char :=
  pyReplaceGo pat rep s.length s

/-- Worker for `pyCount`, structurally recursive on `fuel` like
`pyReplaceGo`. -/
def pyCountGo (pat : List Char) : Nat → List Char → Nat
  | _, [] => 0
  | 0, _ => 0
  | fuel + 1, c :: rest =>
    if pat ≠ [] ∧ pat.isPrefixOf (c :: rest) then
      1 + pyCountGo pat fuel ((c :: rest).drop pat.length)
    else
      pyCountGo pat fuel rest

/-- Python `s.count(pat)` for non-empty `pat`: number of non-overlapping
occurrences, counted greedily left to right. -/
def pyCount (s pat : List Char) : Nat :=
  pyCountGo pat s.length s

/-- Worker for `pySplitlines`: `cur` is the reversed current segment. -/
def splitlinesAux (cur : List Char) : List Char → List (List Char)
  | [] => if cur = [] then [] else [cur.reverse]
  | '\r' :: '\n' :: rest => cur.reverse :: splitlinesAux [] rest
  | c :: rest =>
    if isLineBreak c then cur.reverse :: splitlinesAux [] rest
    else splitlinesAux (c :: cur) rest

/-- Python `s.splitlines()`: split at every line-break character,
treating CRLF as a single break, with no trailing empty segment when the
text ends in a break (and `[]` for the empty text). -/
def pySplitlines (s : List Char) : List (List Char) :=
  splitlinesAux [] s

/-- Python `l.insert(i, a)` on a list: insert at `i`, appending when
`i` is past the end. -/
def pyInsert {α : Type} (l : List α) (i : Nat) (a : α) : List α :=
  l.take i ++ a :: l.drop i

/-- Python `sep.join(pieces)`: the pieces interleaved with the separator. -/
def pyJoin (sep : List Char) : List (List Char) → List Char
  | [] => []
  | [l] => l
  | l :: rest => l ++ sep ++ pyJoin sep rest

/-- An undo/redo history entry: `(lines, cursor_row, cursor_col)`. -/
abbrev Snapshot := List (List Char) × Nat × Nat

/-- The observable state of `TextBuffer` (`editor.py`). -/
structure Buffer where
  lines : List (List Char)
  cursor_row : Nat
  cursor_col : Nat
  modified : Bool
  undo_stack : List Snapshot
  redo_stack : List Snapshot
  selection_start : Option (Nat × Nat)
  selection_end : Option (Nat × Nat)
  deriving DecidableEq

/-- `TextBuffer.__init__`: a single empty line, cursor at the origin. -/
def initialBuffer : Buffer :=
  { lines := [[]], cursor_row := 0, cursor_col := 0, modified := false,
    undo_stack := [], redo_stack := [], selection_start := none, selection_end := none }

/-- `TextBuffer.get_line`: the row's line, or `""` out of range. -/
def get_line (b : Buffer) (row : Nat) : List Char :=
  (b.lines[row]?).getD []

/-- `TextBuffer.get_current_line`. -/
def get_current_line (b : Buffer) : List Char :=
  get_line b b.cursor_row

/-- `TextBuffer.save_state`: evict the oldest entry once more than 50 are
held, push a snapshot of the current lines and cursor, clear the redo stack. -/
def save_state (b : Buffer) : Buffer :=
  let us := if b.undo_stack.length > 50 then b.undo_stack.dropLast else b.undo_stack
  { b with undo_stack := (b.lines, b.cursor_row, b.cursor_col) :: us, redo_stack := [] }

/-- `TextBuffer.undo`: report whether an entry was available; push the
current state on the redo stack and restore the popped snapshot. -/
def undo (b : Buffer) : Bool × Buffer :=
  match b.undo_stack with
  | [] => (false, b)
  | (lines, row, col) :: rest =>
    (true,
      { b with
        redo_stack := (b.lines, b.cursor_row, b.cursor_col) :: b.redo_stack,
        undo_stack := rest,
        lines := lines, cursor_row := row, cursor_col := col, modified := true })

/-- `TextBuffer.redo`: symmetric to `undo`. -/
def redo (b : Buffer) : Bool × Buffer :=
  match b.redo_stack with
  | [] => (false, b)
  | (lines, row, col) :: rest =>
    (true,
      { b with
        undo_stack := (b.lines, b.cursor_row, b.cursor_col) :: b.undo_stack,
        redo_stack := rest,
        lines := lines, cursor_row := row, cursor_col := col, modified := true })

/-- `TextBuffer.set_cursor_position`: clamp the row into
`[0, line_count - 1]` and the column into `[0, length(current line)]`. -/
def set_cursor_position (b : Buffer) (row col : Int) : Buffer :=
  let r : Int := max 0 (min row ((b.lines.length : Int) - 1))
  let c : Int := max 0 (min col ((get_line b r.toNat).length : Int))
  { b with cursor_row := r.toNat, cursor_col := c.toNat }

/-- `TextBuffer.move_cursor`: relative motion with line-wrap semantics,
finished by the clamping `set_cursor_position`. -/
def move_cursor (b : Buffer) (deltaRow deltaCol : Int) : Buffer :=
  let newRow : Int := (b.cursor_row : Int) + deltaRow
  let newCol : Int := (b.cursor_col : Int) + deltaCol
  let len : Int := (b.lines.length : Int)
  let p : Int × Int :=
    if newRow < 0 then (0, 0)
    else if newRow ≥ len then (len - 1, ((get_line b (len - 1).toNat).length : Int))
    else
      let lineLength : Int := ((get_line b newRow.toNat).length : Int)
      if newCol < 0 then
        if newRow > 0 then (newRow - 1, ((get_line b (newRow - 1).toNat).length : Int))
        else (newRow, 0)
      else if newCol > lineLength then
        if newRow < len - 1 then (newRow + 1, 0)
        else (newRow, lineLength)
      else (newRow, newCol)
  set_cursor_position b p.1 p.2

/-- `TextBuffer.insert_char`, with `config.insert_mode` passed explicitly:
checkpoint, then insert (shifting the remainder) or overwrite/append,
advance the column, set `modified`. -/
def insert_char (b : Buffer) (ch : Char) (insertMode : Bool) : Buffer :=
  let b := save_state b
  let line := get_current_line b
  let newLine :=
    if insertMode then pyInsert line b.cursor_col ch
    else if b.cursor_col < line.length then line.set b.cursor_col ch
    else line ++ [ch]
  { b with lines := b.lines.set b.cursor_row newLine,
           cursor_col := b.cursor_col + 1, modified := true }

/-- `TextBuffer.insert_newline`: checkpoint, split the current line at the
cursor, move to column 0 of the new line, set `modified`. -/
def insert_newline (b : Buffer) : Buffer :=
  let b := save_state b
  let line := get_current_line b
  let leftPart := line.take b.cursor_col
  let rightPart := line.drop b.cursor_col
  { b with lines := pyInsert (b.lines.set b.cursor_row leftPart) (b.cursor_row + 1) rightPart,
           cursor_row := b.cursor_row + 1, cursor_col := 0, modified := true }

/-- `TextBuffer.delete_char`: checkpoint unconditionally; delete the char at
the cursor, else merge the next line, else (true end of buffer) change
nothing; always set `modified`. -/
def delete_char (b : Buffer) : Buffer :=
  let b := save_state b
  let line := get_current_line b
  if b.cursor_col < line.length then
    { b with lines := b.lines.set b.cursor_row
               (line.take b.cursor_col ++ line.drop (b.cursor_col + 1)),
             modified := true }
  else if b.cursor_row < b.lines.length - 1 then
    let nextLine := get_line b (b.cursor_row + 1)
    { b with lines := (b.lines.set b.cursor_row (line ++ nextLine)).eraseIdx (b.cursor_row + 1),
             modified := true }
  else
    { b with modified := true }

/-- `TextBuffer.backspace`: step the cursor back (within the line, or to the
end of the previous line) and delegate to `delete_char`; at row 0 column 0
it does nothing at all. -/
def backspace (b : Buffer) : Buffer :=
  if b.cursor_col > 0 then
    delete_char { b with cursor_col := b.cursor_col - 1 }
  else if b.cursor_row > 0 then
    let prevLineLength := (get_line b (b.cursor_row - 1)).length
    delete_char { b with cursor_row := b.cursor_row - 1, cursor_col := prevLineLength }
  else
    b

/-- The `for _ in range(start_row + 1, end_row + 1)` loop of
`delete_selected_text`: repeatedly pop index `start_row + 1` while it is
in range. -/
def popLoop (sr : Nat) : List (List Char) → Nat → List (List Char)
  | lines, 0 => lines
  | lines, k + 1 =>
    popLoop sr (if sr + 1 < lines.length then lines.eraseIdx (sr + 1) else lines) k

/-- The splice step of `delete_selected_text`, acting on already-normalised
anchors `(sr, sc) ≤ (er, ec)`: remove a single-line range, or join the
start-line head with the end-line tail and pop the rows in between, then put
the cursor at the range start and clear the selection.  When `sr` is out of
range the Python code raises `IndexError` at the line assignment, leaving
the buffer unchanged past the checkpoint already taken by the caller; that
state is what the `else` branch returns. -/
def deleteSelCore (b : Buffer) (sr sc er ec : Nat) : Buffer :=
  if sr < b.lines.length then
    if sr = er then
      let line := get_line b sr
      { b with lines := b.lines.set sr (line.take sc ++ line.drop ec),
               cursor_row := sr, cursor_col := sc,
               selection_start := none, selection_end := none, modified := true }
    else
      let startLine := (get_line b sr).take sc
      let endLine := (get_line b er).drop ec
      { b with lines := popLoop sr (b.lines.set sr (startLine ++ endLine)) (er - sr),
               cursor_row := sr, cursor_col := sc,
               selection_start := none, selection_end := none, modified := true }
  else b

/-- `TextBuffer.delete_selected_text`: with no selection, return unchanged;
otherwise checkpoint, normalise the anchors (swap so start precedes end) and
splice with `deleteSelCore`. -/
def delete_selected_text (b : Buffer) : Buffer :=
  match b.selection_start, b.selection_end with
  | some (r1, c1), some (r2, c2) =>
    let b := save_state b
    if r1 > r2 ∨ (r1 = r2 ∧ c1 > c2) then deleteSelCore b r2 c2 r1 c1
    else deleteSelCore b r1 c1 r2 c2
  | _, _ => b

/-- The first `for` loop of `find_text`: scan rows `row, row+1, …` (`fuel`
of them), searching each line from `sc` on the start row and from 0 after. -/
def findFwdGo (lines : List (List Char)) (search : List Char) (sr sc : Nat) :
    Nat → Nat → Option (Nat × Nat)
  | _, 0 => none
  | row, fuel + 1 =>
    let line := (lines[row]?).getD []
    let colStart := if row = sr then sc else 0
    match pyFind line search colStart with
    | some pos => some (row, pos)
    | none => findFwdGo lines search sr sc (row + 1) fuel

/-- The wrap-around `for` loop of `find_text`: scan rows `row, row+1, …`
(`fuel` of them), taking a line's leftmost match only when it lies strictly
before the start column (on the start row) or anywhere (other rows). -/
def findWrapGo (lines : List (List Char)) (search : List Char) (sr sc : Nat) :
    Nat → Nat → Option (Nat × Nat)
  | _, 0 => none
  | row, fuel + 1 =>
    let line := (lines[row]?).getD []
    let colEnd := if row = sr then sc else line.length
    match pyFind line search 0 with
    | some pos =>
      if pos < colEnd then some (row, pos) else findWrapGo lines search sr sc (row + 1) fuel
    | none => findWrapGo lines search sr sc (row + 1) fuel

/-- `TextBuffer.find_text`: empty search finds nothing; otherwise scan from
the start position (default: the cursor) to the end of the buffer, then wrap
from the beginning back to the start position. -/
def find_text (b : Buffer) (search : List Char) (startPos : Option (Nat × Nat)) :
    Option (Nat × Nat) :=
  if search = [] then none
  else
    let p := startPos.getD (b.cursor_row, b.cursor_col)
    match findFwdGo b.lines search p.1 p.2 p.1 (b.lines.length - p.1) with
    | some pos => some pos
    | none => findWrapGo b.lines search p.1 p.2 0 (p.1 + 1)

/-- The `replace_all` loop of `replace_text`: rewrite every line containing
the search text and accumulate the per-line occurrence counts. -/
def replaceAllLines (search rep : List Char) : List (List Char) → List (List Char) × Nat
  | [] => ([], 0)
  | l :: rest =>
    let r := replaceAllLines search rep rest
    if containsSub l search then (pyReplace l search rep :: r.1, r.2 + pyCount l search)
    else (l :: r.1, r.2)

/-- `TextBuffer.replace_text`: replace all occurrences, or just the next one
found from the cursor; afterwards — and only when at least one replacement
was made — call `save_state` (note: the checkpoint is taken *after* the
lines were already rewritten, exactly as the source does) and set
`modified`.  Returns the updated buffer and the replacement count. -/
def replace_text (b : Buffer) (search rep : List Char) (replaceAll : Bool) :
    Buffer × Nat :=
  if search = [] then (b, 0)
  else
    let br :=
      if replaceAll then
        let r := replaceAllLines search rep b.lines
        ({ b with lines := r.1 }, r.2)
      else
        match find_text b search none with
        | some (row, col) =>
          let line := get_line b row
          let newLine := line.take col ++ rep ++ line.drop (col + search.length)
          ({ b with lines := b.lines.set row newLine }, 1)
        | none => (b, 0)
    if br.2 > 0 then
      let b3 := save_state br.1
      ({ b3 with modified := true }, br.2)
    else br

/-- The `content.splitlines() or [""]` step of `TextBuffer.load_file`. -/
def loadLines (content : List Char) : List (List Char) :=
  let ls := pySplitlines content
  if ls = [] then [[]] else ls

/-- `TextBuffer.load_file`, at the level of the decoded text: install the
split lines, reset the cursor and the history, clear `modified`
(the `file_path`/`encoding` bookkeeping is not part of this state). -/
def loadContent (b : Buffer) (content : List Char) : Buffer :=
  { b with lines := loadLines content,
           cursor_row := 0, cursor_col := 0, modified := false,
           undo_stack := [], redo_stack := [] }

/-- `config.line_ending` values. -/
inductive LineEnding where
  | CR
  | LF
  | CRLF
  deriving DecidableEq

/-- `RetroEditConfig.get_line_ending_chars`. -/
def lineEndingChars : LineEnding → List Char
  | .CR => ['\r']
  | .LF => ['\n']
  | .CRLF => ['\r', '\n']

/-- The line-ending conversion performed by `fileio.save_file`: normalise
CRLF then CR to LF, then expand LF to the configured style. -/
def convertLineEndings (content : List Char) (style : LineEnding) : List Char :=
  let c1 := pyReplace content ['\r', '\n'] ['\n']
  let c2 := pyReplace c1 ['\r'] ['\n']
  if lineEndingChars style ≠ ['\n'] then pyReplace c2 ['\n'] (lineEndingChars style) else c2

/-- The latin-1 codec: encoding succeeds exactly when every character is
below U+0100 (Python raises `UnicodeEncodeError` otherwise). -/
def latin1Encode (content : List Char) : Option (List Nat) :=
  if content.all (fun c => c.toNat < 256) then some (content.map Char.toNat) else none

/-- The latin-1 codec decodes any byte sequence: byte value = code point. -/
def latin1Decode (bs : List Nat) : List Char :=
  bs.map Char.ofNat

/-- `TextBuffer.save_file` composed with `fileio.save_file` for the latin-1
codec: join the lines with LF, convert line endings, encode. -/
def saveBytes (lines : List (List Char)) (style : LineEnding) : Option (List Nat) :=
  latin1Encode (convertLineEndings (pyJoin ['\n'] lines) style)

/-- Save through the latin-1 codec, then load the written bytes back the way
`load_file` does: decode and split into lines. -/
def saveLoadRoundTrip (lines : List (List Char)) (style : LineEnding) :
    Option (List (List Char)) :=
  (saveBytes lines style).map (fun bs => loadLines (latin1Decode bs))

/-- The error `fileio.load_file` raises when the path does not exist. -/
inductive LoadError where
  | fileNotFound
  deriving DecidableEq

/-- `fileio.load_file`, with the file system abstracted to the target file's
byte content (`none` when the path does not exist), and the codec selected
by the hint/`chardet` detection abstracted to `firstDecode` (returning
`none` on `UnicodeDecodeError`), likewise `utf8Decode` for the first
fallback.  The decode chain is the source's: hinted/detected encoding, then
UTF-8, then latin-1, which decodes any byte sequence. -/
def fileioLoad (fs : Option (List Nat)) (encLabel : String)
    (firstDecode utf8Decode : List Nat → Option (List Char)) :
    Except LoadError (List Char × String) :=
  match fs with
  | none => Except.error LoadError.fileNotFound
  | some bs =>
    match firstDecode bs with
    | some content => Except.ok (content, encLabel)
    | none =>
      match utf8Decode bs with
      | some content => Except.ok (content, "utf-8")
      | none => Except.ok (latin1Decode bs, "latin-1")

/-- The buffer operations named by the specification's properties, as one
step language; `setSelectionOp` models the caller writing the two selection
anchor attributes. -/
inductive EditOp where
  | moveCursorOp (dr dc : Int)
  | setCursorOp (row col : Int)
  | insertCharOp (c : Char) (insertMode : Bool)
  | insertNewlineOp
  | deleteCharOp
  | backspaceOp
  | setSelectionOp (s e : Option (Nat × Nat))
  | deleteSelectedOp
  | replaceTextOp (search rep : List Char) (all : Bool)
  | loadOp (content : List Char)
  | undoOp
  | redoOp
  deriving DecidableEq

/-- Apply one operation to a buffer (return values are discarded). -/
def applyOp (b : Buffer) : EditOp → Buffer
  | .moveCursorOp dr dc => move_cursor b dr dc
  | .setCursorOp r c => set_cursor_position b r c
  | .insertCharOp c m => insert_char b c m
  | .insertNewlineOp => insert_newline b
  | .deleteCharOp => delete_char b
  | .backspaceOp => backspace b
  | .setSelectionOp s e => { b with selection_start := s, selection_end := e }
  | .deleteSelectedOp => delete_selected_text b
  | .replaceTextOp s r a => (replace_text b s r a).1
  | .loadOp content => loadContent b content
  | .undoOp => (undo b).2
  | .redoOp => (redo b).2

/-- Apply a sequence of operations left to right. -/
def applyOps (b : Buffer) (ops : List EditOp) : Buffer :=
  ops.foldl applyOp b

/-! ### Discriminators on the operation language -/

/-- Whether an operation is a `replace_text` call. -/
def EditOp.isReplaceOp : EditOp → Bool
  | .replaceTextOp _ _ _ => true
  | _ => false

/-- Whether an operation writes the selection anchors. -/
def EditOp.isSetSelOp : EditOp → Bool
  | .setSelectionOp _ _ => true
  | _ => false

/-! ### C10: backspace at the origin is a complete no-op -/

/-- C10: with the cursor at row 0, column 0, `backspace` changes nothing at
all — lines, cursor, modified flag, undo stack and redo stack are untouched
and no checkpoint is pushed. -/
theorem c10_backspace_at_origin_noop (b : Buffer)
    (hrow : b.cursor_row = 0) (hcol : b.cursor_col = 0) :
    backspace b = b := by
  simp [backspace, hrow, hcol]

/-- Witness for C10 at the freshly created buffer. -/
theorem c10_backspace_at_origin_noop_witness :
    initialBuffer.cursor_row = 0 ∧ initialBuffer.cursor_col = 0 ∧
      backspace initialBuffer = initialBuffer :=
  ⟨rfl, rfl, c10_backspace_at_origin_noop initialBuffer rfl rfl⟩

/-! ### C8: delete_char at true end of buffer -/

/-- C8: with the cursor on the last line at the line's length, `delete_char`
leaves lines and cursor unchanged but still pushes a checkpoint onto the
undo stack (evicting the oldest entry when more than 50 are held) and clears
the redo stack. -/
theorem c8_delete_char_end_checkpoints (b : Buffer)
    (hrow : b.cursor_row = b.lines.length - 1)
    (hcol : b.cursor_col = (get_current_line b).length) :
    (delete_char b).lines = b.lines ∧
    (delete_char b).cursor_row = b.cursor_row ∧
    (delete_char b).cursor_col = b.cursor_col ∧
    (delete_char b).undo_stack =
      (b.lines, b.cursor_row, b.cursor_col) ::
        (if b.undo_stack.length > 50 then b.undo_stack.dropLast else b.undo_stack) ∧
    (delete_char b).redo_stack = [] := by
  have h1 : ¬ b.cursor_col < (get_current_line b).length := by omega
  have h2 : ¬ b.cursor_row < b.lines.length - 1 := by omega
  simp only [delete_char, save_state, get_current_line, get_line]
  simp only [get_current_line, get_line] at h1
  rw [if_neg h1, if_neg h2]
  exact ⟨rfl, rfl, rfl, rfl, rfl⟩

/-- Witness for C8 on a one-line buffer with the cursor past the last char. -/
theorem c8_delete_char_end_checkpoints_witness :
    let b : Buffer := { initialBuffer with lines := [['h', 'i']], cursor_col := 2 }
    b.cursor_row = b.lines.length - 1 ∧
    b.cursor_col = (get_current_line b).length ∧
    ((delete_char b).lines = b.lines ∧
     (delete_char b).cursor_row = b.cursor_row ∧
     (delete_char b).cursor_col = b.cursor_col ∧
     (delete_char b).undo_stack =
       (b.lines, b.cursor_row, b.cursor_col) ::
         (if b.undo_stack.length > 50 then b.undo_stack.dropLast else b.undo_stack) ∧
     (delete_char b).redo_stack = []) :=
  ⟨by decide, by decide, c8_delete_char_end_checkpoints _ (by decide) (by decide)⟩

/-! ### C1: the checkpoint recorded by replace_text -/

/-- C1 (refuting the claim on the code): `replace_text` calls `save_state`
only *after* the lines were rewritten, so on the buffer `["abc"]` with the
cursor at (0,3) the single checkpoint recorded is the *post*-replacement
snapshot `(["aXc"], 0, 3)`, and `undo()` immediately after the replacement
leaves the replaced lines `["aXc"]` instead of restoring `["abc"]`. -/
theorem c1_replace_checkpoint_taken_after_mutation :
    (replace_text { initialBuffer with lines := [['a', 'b', 'c']], cursor_col := 3 }
        ['b'] ['X'] true).2 = 1 ∧
    (replace_text { initialBuffer with lines := [['a', 'b', 'c']], cursor_col := 3 }
        ['b'] ['X'] true).1.undo_stack = [([['a', 'X', 'c']], 0, 3)] ∧
    (undo (replace_text { initialBuffer with lines := [['a', 'b', 'c']], cursor_col := 3 }
        ['b'] ['X'] true).1).2.lines = [['a', 'X', 'c']] ∧
    (undo (replace_text { initialBuffer with lines := [['a', 'b', 'c']], cursor_col := 3 }
        ['b'] ['X'] true).1).2.lines ≠ [['a', 'b', 'c']] := by
  decide

/-! ### C9: the load error contract -/

/-- C9: `fileio.load_file` raises the distinct not-found error exactly when
the target file is absent, and for any present byte content it returns
normally — whatever the hinted/detected decoder and the UTF-8 fallback do —
because the final latin-1 fallback decodes any byte sequence. -/
theorem c9_load_never_fails_on_decode (fs : Option (List Nat)) (encLabel : String)
    (fd ud : List Nat → Option (List Char)) :
    (fileioLoad fs encLabel fd ud = Except.error LoadError.fileNotFound ↔ fs = none) ∧
    (∀ bs, fs = some bs →
      ∃ content enc, fileioLoad fs encLabel fd ud = Except.ok (content, enc)) ∧
    (∀ bs, fs = some bs → fd bs = none → ud bs = none →
      fileioLoad fs encLabel fd ud = Except.ok (latin1Decode bs, "latin-1")) := by
  cases fs with
  | none => simp [fileioLoad]
  | some bs =>
    have hok : ∃ content enc,
        fileioLoad (some bs) encLabel fd ud = Except.ok (content, enc) := by
      cases h1 : fd bs with
      | some c => exact ⟨c, encLabel, by simp [fileioLoad, h1]⟩
      | none =>
        cases h2 : ud bs with
        | some c => exact ⟨c, "utf-8", by simp [fileioLoad, h1, h2]⟩
        | none => exact ⟨latin1Decode bs, "latin-1", by simp [fileioLoad, h1, h2]⟩
    obtain ⟨c, e, he⟩ := hok
    refine ⟨⟨fun h => ?_, fun h => by cases h⟩, fun bs2 h => ?_, fun bs2 h h1 h2 => ?_⟩
    · rw [he] at h
      cases h
    · cases h
      exact ⟨c, e, he⟩
    · cases h
      simp [fileioLoad, h1, h2]

/-- Witness for C9: a present one-byte file on which both the hinted and the
UTF-8 decoders fail still loads, via latin-1. -/
theorem c9_load_never_fails_on_decode_witness :
    ((some [200] : Option (List Nat)) = some [200]) ∧
    fileioLoad (some [200]) "cp1252" (fun _ => none) (fun _ => none) =
      Except.ok (latin1Decode [200], "latin-1") :=
  ⟨rfl, (c9_load_never_fails_on_decode (some [200]) "cp1252"
    (fun _ => none) (fun _ => none)).2.2 [200] rfl rfl rfl⟩

/-! ### Counterexamples: C2, C4, C5, C6 as stated fail on the code -/

/-- C2 is refuted by the code: starting from the freshly created buffer and
applying only calls from the claim's list (three `insert_char`s and one
`replace_text` that replaces all of "abc" by ""), the cursor column ends at
3 while the line under the cursor has length 0 — `replace_text` never
re-clamps the cursor. -/
theorem c2_counterexample_replace_leaves_stale_cursor :
    (applyOps initialBuffer
        [.insertCharOp 'a' true, .insertCharOp 'b' true, .insertCharOp 'c' true,
         .replaceTextOp ['a', 'b', 'c'] [] true]).cursor_col = 3 ∧
    (get_current_line (applyOps initialBuffer
        [.insertCharOp 'a' true, .insertCharOp 'b' true, .insertCharOp 'c' true,
         .replaceTextOp ['a', 'b', 'c'] [] true])).length = 0 := by
  decide

/-- C4 is refuted by the code: the buffer content `["a", ""]` (a trailing
empty line) saves as the text "a" followed by one line ending, which loads
back as the single line `["a"]` — not the same line content. -/
theorem c4_counterexample_trailing_empty_line :
    saveLoadRoundTrip [['a'], []] LineEnding.CRLF = some [['a']] ∧
    saveLoadRoundTrip [['a'], []] LineEnding.CRLF ≠ some [['a'], []] := by
  decide

/-- C5 is refuted by the code: on the single line "x y x" the last
occurrence of "x" is at (0,4); `find_text` started exactly there finds that
very occurrence (the forward scan matches at the start position itself) and
so does not wrap to the first occurrence (0,0). -/
theorem c5_counterexample_find_at_last_occurrence :
    find_text { initialBuffer with lines := [['x', ' ', 'y', ' ', 'x']] }
        ['x'] (some (0, 4)) = some (0, 4) ∧
    find_text { initialBuffer with lines := [['x', ' ', 'y', ' ', 'x']] }
        ['x'] (some (0, 4)) ≠ some (0, 0) := by
  decide

/-- C6 is refuted by the code: replacing "ab" by "b" in the line "aab"
juxtaposes the kept "a" with the substituted "b", so the result "ab" again
contains the search text even though the replacement "b" does not; the
claimed post-condition `find_text = none` fails (the count 1 is correct). -/
theorem c6_counterexample_replacement_creates_occurrence :
    (replace_text { initialBuffer with lines := [['a', 'a', 'b']] }
        ['a', 'b'] ['b'] true).2 = 1 ∧
    containsSub ['b'] ['a', 'b'] = false ∧
    find_text (replace_text { initialBuffer with lines := [['a', 'a', 'b']] }
        ['a', 'b'] ['b'] true).1 ['a', 'b'] none = some (0, 0) := by
  decide

/-! ### Structural invariants of the buffer: non-empty lines, cursor bounds -/

/-- A history entry is row-consistent: its snapshot holds at least one line
and its recorded row indexes one of them. -/
def snapRowOk (s : Snapshot) : Prop :=
  s.1 ≠ [] ∧ s.2.1 < s.1.length

/-- A history entry is column-consistent: its recorded column does not
exceed the length of the line its row points at. -/
def snapColOk (s : Snapshot) : Prop :=
  s.2.2 ≤ ((s.1[s.2.1]?).getD []).length

/-- Row half of the data-model well-formedness: at least one line, cursor
row in range, and every history entry row-consistent. -/
def RowInv (b : Buffer) : Prop :=
  b.lines ≠ [] ∧ b.cursor_row < b.lines.length ∧
    (∀ s ∈ b.undo_stack, snapRowOk s) ∧ (∀ s ∈ b.redo_stack, snapRowOk s)

/-- Column half of the data-model well-formedness, together with the
absence of an active selection (no operation in the specification's call
list ever installs one). -/
def ColInv (b : Buffer) : Prop :=
  b.cursor_col ≤ (get_current_line b).length ∧
    (∀ s ∈ b.undo_stack, snapColOk s) ∧ (∀ s ∈ b.redo_stack, snapColOk s) ∧
    b.selection_start = none ∧ b.selection_end = none

theorem getElem?_set_lt {α : Type} (l : List α) (i : Nat) (a : α) (h : i < l.length) :
    (l.set i a)[i]? = some a := by
  simp [List.getElem?_set, h]

theorem mem_ite_dropLast {α : Type} (s : α) (l : List α) (c : Prop) [Decidable c]
    (hs : s ∈ if c then l.dropLast else l) : s ∈ l := by
  split at hs
  · exact List.dropLast_subset _ hs
  · exact hs

theorem rowInv_save_state (b : Buffer) (h : RowInv b) : RowInv (save_state b) := by
  obtain ⟨h1, h2, h3, _⟩ := h
  refine ⟨h1, h2, ?_, by intro s hs; cases hs⟩
  intro s hs
  rcases List.mem_cons.mp hs with rfl | hs
  · exact ⟨h1, h2⟩
  · exact h3 s (mem_ite_dropLast s _ _ hs)

theorem colInv_save_state (b : Buffer) (hc : ColInv b) : ColInv (save_state b) := by
  obtain ⟨h1, h2, _, h4, h5⟩ := hc
  refine ⟨h1, ?_, ?_, h4, h5⟩
  · intro s hs
    rcases List.mem_cons.mp hs with rfl | hs
    · exact h1
    · exact h2 s (mem_ite_dropLast s _ _ hs)
  · intro s hs
    simp only [save_state] at hs
    cases hs

/-- Arithmetic of the row clamp in `set_cursor_position`. -/
theorem clampRowLt (row : Int) (n : Nat) (h : 0 < n) :
    (max 0 (min row ((n : Int) - 1))).toNat < n := by
  rcases le_total (min row ((n : Int) - 1)) 0 with hm | hm
  · rw [max_eq_left hm]
    omega
  · rw [max_eq_right hm]
    have := min_le_right row ((n : Int) - 1)
    omega

/-- Arithmetic of the column clamp in `set_cursor_position`. -/
theorem clampColLe (col : Int) (n : Nat) :
    (max 0 (min col (n : Int))).toNat ≤ n := by
  rcases le_total (min col (n : Int)) 0 with hm | hm
  · rw [max_eq_left hm]
    omega
  · rw [max_eq_right hm]
    have := min_le_right col (n : Int)
    omega

theorem rowInv_set_cursor_position (b : Buffer) (row col : Int) (h : RowInv b) :
    RowInv (set_cursor_position b row col) := by
  obtain ⟨h1, _, h3, h4⟩ := h
  have hlen : 0 < b.lines.length := List.length_pos.mpr h1
  exact ⟨h1, clampRowLt row b.lines.length hlen, h3, h4⟩

theorem colInv_set_cursor_position (b : Buffer) (row col : Int) (hc : ColInv b) :
    ColInv (set_cursor_position b row col) := by
  obtain ⟨_, hc2, hc3, hc4, hc5⟩ := hc
  exact ⟨clampColLe col _, hc2, hc3, hc4, hc5⟩

theorem rowInv_move_cursor (b : Buffer) (dr dc : Int) (h : RowInv b) :
    RowInv (move_cursor b dr dc) := by
  unfold move_cursor
  exact rowInv_set_cursor_position b _ _ h

theorem colInv_move_cursor (b : Buffer) (dr dc : Int) (hc : ColInv b) :
    ColInv (move_cursor b dr dc) := by
  unfold move_cursor
  exact colInv_set_cursor_position b _ _ hc

theorem pyInsert_length {α : Type} (l : List α) (i : Nat) (a : α) (h : i ≤ l.length) :
    (pyInsert l i a).length = l.length + 1 := by
  simp only [pyInsert, List.length_append, List.length_cons, List.length_take,
    List.length_drop]
  omega

theorem rowInv_insert_char (b : Buffer) (ch : Char) (m : Bool) (h : RowInv b) :
    RowInv (insert_char b ch m) := by
  have hs := rowInv_save_state b h
  obtain ⟨h1, h2, h3, h4⟩ := hs
  unfold insert_char
  refine ⟨?_, ?_, h3, h4⟩
  · rw [← List.length_pos]
    rw [← List.length_pos] at h1
    simpa using h1
  · simpa using h2

theorem colInv_insert_char (b : Buffer) (ch : Char) (m : Bool)
    (hr : RowInv b) (hc : ColInv b) : ColInv (insert_char b ch m) := by
  have hrow : b.cursor_row < b.lines.length := hr.2.1
  have hcol : b.cursor_col ≤ (get_current_line b).length := hc.1
  have hsc := colInv_save_state b hc
  obtain ⟨k1, k2, k3, k4, k5⟩ := hsc
  unfold insert_char
  refine ⟨?_, k2, k3, k4, k5⟩
  show b.cursor_col + 1 ≤ (get_current_line _).length
  have hline : get_current_line (save_state b) = get_current_line b := rfl
  simp only [get_current_line, get_line, save_state]
  rw [getElem?_set_lt _ _ _ hrow]
  simp only [Option.getD_some]
  simp only [get_current_line, get_line, save_state] at hcol hline
  split
  · rw [pyInsert_length _ _ _ hcol]
    omega
  · split
    · rw [List.length_set]
      omega
    · simp only [List.length_append, List.length_cons]
      omega

theorem rowInv_insert_newline (b : Buffer) (h : RowInv b) :
    RowInv (insert_newline b) := by
  have hs := rowInv_save_state b h
  obtain ⟨h1, h2, h3, h4⟩ := hs
  unfold insert_newline
  have hlen : (pyInsert ((save_state b).lines.set (save_state b).cursor_row
      ((get_current_line (save_state b)).take (save_state b).cursor_col))
      ((save_state b).cursor_row + 1)
      ((get_current_line (save_state b)).drop (save_state b).cursor_col)).length =
      (save_state b).lines.length + 1 := by
    rw [pyInsert_length]
    · rw [List.length_set]
    · rw [List.length_set]
      omega
  refine ⟨?_, ?_, h3, h4⟩
  · rw [← List.length_pos, hlen]
    omega
  · show (save_state b).cursor_row + 1 < _
    rw [hlen]
    omega

theorem colInv_insert_newline (b : Buffer) (hc : ColInv b) :
    ColInv (insert_newline b) := by
  have hsc := colInv_save_state b hc
  obtain ⟨k1, k2, k3, k4, k5⟩ := hsc
  unfold insert_newline
  exact ⟨Nat.zero_le _, k2, k3, k4, k5⟩

theorem save_state_lines_eq (b : Buffer) : (save_state b).lines = b.lines := rfl

theorem save_state_cursor_row_eq (b : Buffer) : (save_state b).cursor_row = b.cursor_row := rfl

theorem save_state_cursor_col_eq (b : Buffer) : (save_state b).cursor_col = b.cursor_col := rfl

theorem get_current_line_save_state (b : Buffer) :
    get_current_line (save_state b) = get_current_line b := rfl

theorem get_line_save_state (b : Buffer) (r : Nat) :
    get_line (save_state b) r = get_line b r := rfl

theorem rowInv_intro (lines : List (List Char)) (cr cc : Nat) (m : Bool)
    (us rs : List Snapshot) (ss se : Option (Nat × Nat))
    (h1 : lines ≠ []) (h2 : cr < lines.length)
    (h3 : ∀ s ∈ us, snapRowOk s) (h4 : ∀ s ∈ rs, snapRowOk s) :
    RowInv ⟨lines, cr, cc, m, us, rs, ss, se⟩ :=
  ⟨h1, h2, h3, h4⟩

theorem colInv_intro (lines : List (List Char)) (cr cc : Nat) (m : Bool)
    (us rs : List Snapshot)
    (h1 : cc ≤ ((lines[cr]?).getD []).length)
    (h2 : ∀ s ∈ us, snapColOk s) (h3 : ∀ s ∈ rs, snapColOk s) :
    ColInv ⟨lines, cr, cc, m, us, rs, none, none⟩ :=
  ⟨h1, h2, h3, rfl, rfl⟩

theorem rowInv_delete_char (b : Buffer) (h : RowInv b) : RowInv (delete_char b) := by
  have hs := rowInv_save_state b h
  obtain ⟨h1, h2, h3, h4⟩ := hs
  rw [save_state_lines_eq] at h1 h2
  rw [save_state_cursor_row_eq] at h2
  simp only [delete_char, get_current_line_save_state, get_line_save_state,
    save_state_lines_eq, save_state_cursor_row_eq, save_state_cursor_col_eq]
  have hlen : 0 < b.lines.length := List.length_pos.mpr h1
  by_cases hA : b.cursor_col < (get_current_line b).length
  · rw [if_pos hA]
    refine rowInv_intro _ _ _ _ _ _ _ _ ?_ ?_ h3 h4
    · rw [← List.length_pos, List.length_set]
      exact hlen
    · rw [List.length_set]
      exact h2
  · rw [if_neg hA]
    by_cases hB : b.cursor_row < b.lines.length - 1
    · rw [if_pos hB]
      refine rowInv_intro _ _ _ _ _ _ _ _ ?_ ?_ h3 h4
      · rw [← List.length_pos, List.length_eraseIdx]
        simp only [List.length_set]
        split <;> omega
      · rw [List.length_eraseIdx]
        simp only [List.length_set]
        split <;> omega
    · rw [if_neg hB]
      exact rowInv_intro _ _ _ _ _ _ _ _ h1 h2 h3 h4

theorem colInv_delete_char (b : Buffer) (hr : RowInv b) (hc : ColInv b) :
    ColInv (delete_char b) := by
  have hrow : b.cursor_row < b.lines.length := hr.2.1
  have hcol : b.cursor_col ≤ (get_current_line b).length := hc.1
  have hsc := colInv_save_state b hc
  obtain ⟨k1, k2, k3, k4, k5⟩ := hsc
  have hss : (save_state b).selection_start = none := k4
  have hse : (save_state b).selection_end = none := k5
  simp only [delete_char, get_current_line_save_state, get_line_save_state,
    save_state_lines_eq, save_state_cursor_row_eq, save_state_cursor_col_eq, hss, hse]
  by_cases hA : b.cursor_col < (get_current_line b).length
  · rw [if_pos hA]
    refine colInv_intro _ _ _ _ _ _ ?_ k2 k3
    rw [getElem?_set_lt _ _ _ hrow]
    simp only [Option.getD_some, List.length_append, List.length_take, List.length_drop]
    simp only [get_current_line, get_line] at hA
    omega
  · rw [if_neg hA]
    by_cases hB : b.cursor_row < b.lines.length - 1
    · rw [if_pos hB]
      refine colInv_intro _ _ _ _ _ _ ?_ k2 k3
      rw [List.getElem?_eraseIdx, if_pos (Nat.lt_succ_self b.cursor_row),
        getElem?_set_lt _ _ _ hrow]
      simp only [Option.getD_some, List.length_append]
      omega
    · rw [if_neg hB]
      exact colInv_intro _ _ _ _ _ _ (by simpa [get_current_line, get_line] using hcol) k2 k3

theorem rowInv_backspace (b : Buffer) (h : RowInv b) : RowInv (backspace b) := by
  unfold backspace
  split
  · exact rowInv_delete_char _ ⟨h.1, h.2.1, h.2.2.1, h.2.2.2⟩
  · split
    · exact rowInv_delete_char _
        ⟨h.1, Nat.lt_of_le_of_lt (Nat.sub_le _ _) h.2.1, h.2.2.1, h.2.2.2⟩
    · exact h

theorem colInv_backspace (b : Buffer) (hr : RowInv b) (hc : ColInv b) :
    ColInv (backspace b) := by
  unfold backspace
  split
  · refine colInv_delete_char _ ⟨hr.1, hr.2.1, hr.2.2.1, hr.2.2.2⟩ ?_
    exact ⟨Nat.le_trans (Nat.sub_le _ _) hc.1, hc.2.1, hc.2.2.1, hc.2.2.2⟩
  · split
    · refine colInv_delete_char _
        ⟨hr.1, Nat.lt_of_le_of_lt (Nat.sub_le _ _) hr.2.1, hr.2.2.1, hr.2.2.2⟩ ?_
      exact ⟨Nat.le_refl _, hc.2.1, hc.2.2.1, hc.2.2.2⟩
    · exact hc

theorem popLoop_length_lt (sr k : Nat) :
    ∀ (l : List (List Char)), sr < l.length → sr < (popLoop sr l k).length := by
  induction k with
  | zero =>
    intro l h
    exact h
  | succ k ih =>
    intro l h
    show sr < (popLoop sr (if sr + 1 < l.length then l.eraseIdx (sr + 1) else l) k).length
    apply ih
    split
    · rw [List.length_eraseIdx]
      split <;> omega
    · exact h

theorem rowInv_deleteSelCore (b : Buffer) (sr sc er ec : Nat) (h : RowInv b) :
    RowInv (deleteSelCore b sr sc er ec) := by
  obtain ⟨h1, h2, h3, h4⟩ := h
  simp only [deleteSelCore]
  by_cases hsr : sr < b.lines.length
  · rw [if_pos hsr]
    by_cases heq : sr = er
    · rw [if_pos heq]
      refine rowInv_intro _ _ _ _ _ _ _ _ ?_ ?_ h3 h4
      · rw [← List.length_pos, List.length_set]
        omega
      · rw [List.length_set]
        exact hsr
    · rw [if_neg heq]
      have hpl : sr < (popLoop sr (b.lines.set sr
          ((get_line b sr).take sc ++ (get_line b er).drop ec)) (er - sr)).length := by
        apply popLoop_length_lt
        rw [List.length_set]
        exact hsr
      refine rowInv_intro _ _ _ _ _ _ _ _ ?_ hpl h3 h4
      rw [← List.length_pos]
      omega
  · rw [if_neg hsr]
    exact ⟨h1, h2, h3, h4⟩

theorem rowInv_delete_selected_text (b : Buffer) (h : RowInv b) :
    RowInv (delete_selected_text b) := by
  have hs := rowInv_save_state b h
  simp only [delete_selected_text]
  rcases b.selection_start with _ | ⟨r1, c1⟩
  · exact h
  · rcases b.selection_end with _ | ⟨r2, c2⟩
    · exact h
    · show RowInv (if r1 > r2 ∨ (r1 = r2 ∧ c1 > c2)
        then deleteSelCore (save_state b) r2 c2 r1 c1
        else deleteSelCore (save_state b) r1 c1 r2 c2)
      by_cases hsw : r1 > r2 ∨ (r1 = r2 ∧ c1 > c2)
      · rw [if_pos hsw]
        exact rowInv_deleteSelCore _ _ _ _ _ hs
      · rw [if_neg hsw]
        exact rowInv_deleteSelCore _ _ _ _ _ hs

theorem colInv_delete_selected_text (b : Buffer) (hc : ColInv b) :
    ColInv (delete_selected_text b) := by
  have h4 := hc.2.2.2.1
  have h5 := hc.2.2.2.2
  simp only [delete_selected_text, h4, h5]
  exact hc

theorem replaceAllLines_length (s r : List Char) (ls : List (List Char)) :
    ((replaceAllLines s r ls).1).length = ls.length := by
  induction ls with
  | nil => rfl
  | cons l rest ih =>
    simp only [replaceAllLines]
    split <;> simpa using ih

theorem rowInv_modified (b : Buffer) (m : Bool) (h : RowInv b) :
    RowInv { b with modified := m } :=
  ⟨h.1, h.2.1, h.2.2.1, h.2.2.2⟩

theorem rowInv_replace_text (b : Buffer) (s r : List Char) (a : Bool) (h : RowInv b) :
    RowInv (replace_text b s r a).1 := by
  simp only [replace_text]
  by_cases hs : s = []
  · rw [if_pos hs]
    exact h
  · rw [if_neg hs]
    have core : ∀ (br : Buffer × Nat), RowInv br.1 →
        RowInv ((if br.2 > 0 then
          ({ save_state br.1 with modified := true }, br.2) else br).1) := by
      intro br hbr
      split
      · exact rowInv_modified _ _ (rowInv_save_state _ hbr)
      · exact hbr
    apply core
    split
    · refine ⟨?_, ?_, h.2.2.1, h.2.2.2⟩
      · rw [← List.length_pos, replaceAllLines_length]
        exact List.length_pos.mpr h.1
      · show b.cursor_row < _
        rw [replaceAllLines_length]
        exact h.2.1
    · split
      · rename_i pos row col heq
        refine ⟨?_, ?_, h.2.2.1, h.2.2.2⟩
        · rw [← List.length_pos, List.length_set]
          exact List.length_pos.mpr h.1
        · show b.cursor_row < _
          rw [List.length_set]
          exact h.2.1
      · exact h

theorem rowInv_undo (b : Buffer) (h : RowInv b) : RowInv (undo b).2 := by
  obtain ⟨h1, h2, h3, h4⟩ := h
  rcases hstack : b.undo_stack with _ | ⟨⟨ls, row, col⟩, rest⟩
  · simp only [undo, hstack]
    exact ⟨h1, h2, fun s hs => h3 s hs, h4⟩
  · have hmem : (ls, row, col) ∈ b.undo_stack := by
      rw [hstack]
      exact List.mem_cons_self _ _
    have hsnap := h3 _ hmem
    simp only [undo, hstack]
    refine ⟨hsnap.1, hsnap.2, ?_, ?_⟩
    · intro s hs
      exact h3 s (by rw [hstack]; exact List.mem_cons_of_mem _ hs)
    · intro s hs
      rcases List.mem_cons.mp hs with rfl | hs
      · exact ⟨h1, h2⟩
      · exact h4 s hs

theorem rowInv_redo (b : Buffer) (h : RowInv b) : RowInv (redo b).2 := by
  obtain ⟨h1, h2, h3, h4⟩ := h
  rcases hstack : b.redo_stack with _ | ⟨⟨ls, row, col⟩, rest⟩
  · simp only [redo, hstack]
    exact ⟨h1, h2, h3, fun s hs => h4 s hs⟩
  · have hmem : (ls, row, col) ∈ b.redo_stack := by
      rw [hstack]
      exact List.mem_cons_self _ _
    have hsnap := h4 _ hmem
    simp only [redo, hstack]
    refine ⟨hsnap.1, hsnap.2, ?_, ?_⟩
    · intro s hs
      rcases List.mem_cons.mp hs with rfl | hs
      · exact ⟨h1, h2⟩
      · exact h3 s hs
    · intro s hs
      exact h4 s (by rw [hstack]; exact List.mem_cons_of_mem _ hs)

theorem colInv_undo (b : Buffer) (hc : ColInv b) : ColInv (undo b).2 := by
  obtain ⟨h1, h2, h3, h4, h5⟩ := hc
  rcases hstack : b.undo_stack with _ | ⟨⟨ls, row, col⟩, rest⟩
  · simp only [undo, hstack]
    exact ⟨h1, fun s hs => h2 s hs, h3, h4, h5⟩
  · have hmem : (ls, row, col) ∈ b.undo_stack := by
      rw [hstack]
      exact List.mem_cons_self _ _
    have hsnap := h2 _ hmem
    simp only [undo, hstack]
    refine ⟨hsnap, ?_, ?_, h4, h5⟩
    · intro s hs
      exact h2 s (by rw [hstack]; exact List.mem_cons_of_mem _ hs)
    · intro s hs
      rcases List.mem_cons.mp hs with rfl | hs
      · exact h1
      · exact h3 s hs

theorem colInv_redo (b : Buffer) (hc : ColInv b) : ColInv (redo b).2 := by
  obtain ⟨h1, h2, h3, h4, h5⟩ := hc
  rcases hstack : b.redo_stack with _ | ⟨⟨ls, row, col⟩, rest⟩
  · simp only [redo, hstack]
    exact ⟨h1, h2, fun s hs => h3 s hs, h4, h5⟩
  · have hmem : (ls, row, col) ∈ b.redo_stack := by
      rw [hstack]
      exact List.mem_cons_self _ _
    have hsnap := h3 _ hmem
    simp only [redo, hstack]
    refine ⟨hsnap, ?_, ?_, h4, h5⟩
    · intro s hs
      rcases List.mem_cons.mp hs with rfl | hs
      · exact h1
      · exact h2 s hs
    · intro s hs
      exact h3 s (by rw [hstack]; exact List.mem_cons_of_mem _ hs)

theorem loadLines_length_pos (content : List Char) : 0 < (loadLines content).length := by
  simp only [loadLines]
  split
  · simp
  · rename_i hne
    rw [List.length_pos]
    exact hne

theorem rowInv_loadContent (b : Buffer) (content : List Char) :
    RowInv (loadContent b content) := by
  refine ⟨?_, ?_, ?_, ?_⟩
  · rw [← List.length_pos]
    exact loadLines_length_pos content
  · exact loadLines_length_pos content
  · intro s hs
    cases hs
  · intro s hs
    cases hs

theorem colInv_loadContent (b : Buffer) (content : List Char) (hc : ColInv b) :
    ColInv (loadContent b content) := by
  refine ⟨Nat.zero_le _, ?_, ?_, hc.2.2.2.1, hc.2.2.2.2⟩
  · intro s hs
    cases hs
  · intro s hs
    cases hs

theorem rowInv_applyOp (b : Buffer) (op : EditOp) (h : RowInv b) :
    RowInv (applyOp b op) := by
  cases op with
  | moveCursorOp dr dc => exact rowInv_move_cursor b dr dc h
  | setCursorOp r c => exact rowInv_set_cursor_position b r c h
  | insertCharOp c m => exact rowInv_insert_char b c m h
  | insertNewlineOp => exact rowInv_insert_newline b h
  | deleteCharOp => exact rowInv_delete_char b h
  | backspaceOp => exact rowInv_backspace b h
  | setSelectionOp s e => exact ⟨h.1, h.2.1, h.2.2.1, h.2.2.2⟩
  | deleteSelectedOp => exact rowInv_delete_selected_text b h
  | replaceTextOp s r a => exact rowInv_replace_text b s r a h
  | loadOp content => exact rowInv_loadContent b content
  | undoOp => exact rowInv_undo b h
  | redoOp => exact rowInv_redo b h

theorem colInv_applyOp (b : Buffer) (op : EditOp) (hr : RowInv b) (hc : ColInv b)
    (hrep : op.isReplaceOp = false) (hsel : op.isSetSelOp = false) :
    ColInv (applyOp b op) := by
  cases op with
  | moveCursorOp dr dc => exact colInv_move_cursor b dr dc hc
  | setCursorOp r c => exact colInv_set_cursor_position b r c hc
  | insertCharOp c m => exact colInv_insert_char b c m hr hc
  | insertNewlineOp => exact colInv_insert_newline b hc
  | deleteCharOp => exact colInv_delete_char b hr hc
  | backspaceOp => exact colInv_backspace b hr hc
  | setSelectionOp s e => cases hsel
  | deleteSelectedOp => exact colInv_delete_selected_text b hc
  | replaceTextOp s r a => cases hrep
  | loadOp content => exact colInv_loadContent b content hc
  | undoOp => exact colInv_undo b hc
  | redoOp => exact colInv_redo b hc

theorem applyOps_cons (b : Buffer) (op : EditOp) (ops : List EditOp) :
    applyOps b (op :: ops) = applyOps (applyOp b op) ops := rfl

theorem rowInv_applyOps (b : Buffer) (ops : List EditOp) (h : RowInv b) :
    RowInv (applyOps b ops) := by
  induction ops generalizing b with
  | nil => exact h
  | cons op rest ih =>
    rw [applyOps_cons]
    exact ih _ (rowInv_applyOp b op h)

theorem colInv_applyOps (b : Buffer) (ops : List EditOp) (hr : RowInv b) (hc : ColInv b)
    (hops : ∀ op ∈ ops, op.isReplaceOp = false ∧ op.isSetSelOp = false) :
    ColInv (applyOps b ops) := by
  induction ops generalizing b with
  | nil => exact hc
  | cons op rest ih =>
    rw [applyOps_cons]
    have hop := hops op (List.mem_cons_self _ _)
    exact ih _ (rowInv_applyOp b op hr)
      (colInv_applyOp b op hr hc hop.1 hop.2)
      (fun o ho => hops o (List.mem_cons_of_mem _ ho))

/-- C7: every operation preserves the non-empty-lines invariant: starting
from the freshly created buffer, after any sequence of loads (including of
empty content) and mutations — `delete_char`, `backspace`,
`delete_selected_text`, `undo`, `redo`, `replace_text`, the insertions,
cursor motion and selection updates — the buffer still holds at least one
line. -/
theorem c7_lines_never_empty (ops : List EditOp) :
    (applyOps initialBuffer ops).lines ≠ [] := by
  have h : RowInv initialBuffer := by
    refine ⟨by simp [initialBuffer], by simp [initialBuffer], ?_, ?_⟩ <;>
      intro s hs <;> simp [initialBuffer] at hs
  exact (rowInv_applyOps initialBuffer ops h).1

/-- C2 amended: over any sequence of the claim's listed calls (no
`setSelection` — none of the listed calls installs one) applied to a
well-formed buffer, the row inequality `0 ≤ row < lineCount` always holds —
even across `replace_text` — while the column inequality
`0 ≤ col ≤ length(line[row])` holds provided the sequence contains no
`replace_text` call: `replace_text` rewrites lines without re-clamping the
cursor, which is the single violation (see the counterexample). -/
theorem c2_cursor_clamp_amended (b : Buffer) (ops : List EditOp)
    (hr : RowInv b) (hc : ColInv b)
    (hsel : ∀ op ∈ ops, op.isSetSelOp = false) :
    (applyOps b ops).cursor_row < (applyOps b ops).lines.length ∧
    ((∀ op ∈ ops, op.isReplaceOp = false) →
      (applyOps b ops).cursor_col ≤ (get_current_line (applyOps b ops)).length) := by
  constructor
  · exact (rowInv_applyOps b ops hr).2.1
  · intro hrep
    exact (colInv_applyOps b ops hr hc (fun op ho => ⟨hrep op ho, hsel op ho⟩)).1

/-- Witness for the amended C2 on a short concrete call sequence. -/
theorem c2_cursor_clamp_amended_witness :
    RowInv initialBuffer ∧ ColInv initialBuffer ∧
    (∀ op ∈ [EditOp.insertCharOp 'a' true, EditOp.backspaceOp], op.isSetSelOp = false) ∧
    ((applyOps initialBuffer [EditOp.insertCharOp 'a' true, EditOp.backspaceOp]).cursor_row <
        (applyOps initialBuffer [EditOp.insertCharOp 'a' true, EditOp.backspaceOp]).lines.length ∧
      ((∀ op ∈ [EditOp.insertCharOp 'a' true, EditOp.backspaceOp], op.isReplaceOp = false) →
        (applyOps initialBuffer [EditOp.insertCharOp 'a' true, EditOp.backspaceOp]).cursor_col ≤
          (get_current_line
            (applyOps initialBuffer [EditOp.insertCharOp 'a' true, EditOp.backspaceOp])).length)) := by
  refine ⟨?_, ?_, ?_, ?_⟩
  · exact ⟨by simp [initialBuffer], by simp [initialBuffer],
      by intro s hs; simp [initialBuffer] at hs, by intro s hs; simp [initialBuffer] at hs⟩
  · exact ⟨by simp [initialBuffer, get_current_line, get_line],
      by intro s hs; simp [initialBuffer] at hs,
      by intro s hs; simp [initialBuffer] at hs, rfl, rfl⟩
  · decide
  · refine c2_cursor_clamp_amended initialBuffer _ ?_ ?_ (by decide)
    · exact ⟨by simp [initialBuffer], by simp [initialBuffer],
        by intro s hs; simp [initialBuffer] at hs, by intro s hs; simp [initialBuffer] at hs⟩
    · exact ⟨by simp [initialBuffer, get_current_line, get_line],
        by intro s hs; simp [initialBuffer] at hs,
        by intro s hs; simp [initialBuffer] at hs, rfl, rfl⟩

/-! ### C3: the undo/redo inverse law -/

/-- Iterate `undo`, discarding the returned flags. -/
def undoTimes : Buffer → Nat → Buffer
  | b, 0 => b
  | b, n + 1 => undoTimes (undo b).2 n

/-- Iterate `redo`, discarding the returned flags. -/
def redoTimes : Buffer → Nat → Buffer
  | b, 0 => b
  | b, n + 1 => redoTimes (redo b).2 n

/-- The state restored by the inverse law: everything except `modified`. -/
def coreState (b : Buffer) :
    Snapshot × List Snapshot × List Snapshot × Option (Nat × Nat) × Option (Nat × Nat) :=
  ((b.lines, b.cursor_row, b.cursor_col), b.undo_stack, b.redo_stack,
    b.selection_start, b.selection_end)

theorem undoTimes_succ (n : Nat) (b : Buffer) :
    undoTimes b (n + 1) = (undo (undoTimes b n)).2 := by
  induction n generalizing b with
  | zero => rfl
  | succ n ih =>
    show undoTimes (undo b).2 (n + 1) = (undo (undoTimes (undo b).2 n)).2
    exact ih _

theorem redoTimes_succ (n : Nat) (b : Buffer) :
    redoTimes b (n + 1) = (redo (redoTimes b n)).2 := by
  induction n generalizing b with
  | zero => rfl
  | succ n ih =>
    show redoTimes (redo b).2 (n + 1) = (redo (redoTimes (redo b).2 n)).2
    exact ih _

theorem undo_nil (b : Buffer) (h : b.undo_stack = []) : (undo b).2 = b := by
  simp [undo, h]

theorem redo_nil (b : Buffer) (h : b.redo_stack = []) : (redo b).2 = b := by
  simp [redo, h]

theorem undo_cons (b : Buffer) (ls : List (List Char)) (row col : Nat)
    (rest : List Snapshot) (h : b.undo_stack = (ls, row, col) :: rest) :
    (undo b).2 = { b with
      redo_stack := (b.lines, b.cursor_row, b.cursor_col) :: b.redo_stack,
      undo_stack := rest,
      lines := ls, cursor_row := row, cursor_col := col, modified := true } := by
  simp [undo, h]

theorem redo_cons (b : Buffer) (ls : List (List Char)) (row col : Nat)
    (rest : List Snapshot) (h : b.redo_stack = (ls, row, col) :: rest) :
    (redo b).2 = { b with
      undo_stack := (b.lines, b.cursor_row, b.cursor_col) :: b.undo_stack,
      redo_stack := rest,
      lines := ls, cursor_row := row, cursor_col := col, modified := true } := by
  simp [redo, h]

/-- Core of the inverse law: undoing once per history entry and then
redoing the same number of times restores the lines, the cursor, both
stacks and the selection (only `modified` may differ). -/
theorem undo_redo_core : ∀ (us : List Snapshot) (b : Buffer), b.undo_stack = us →
    coreState (redoTimes (undoTimes b us.length) us.length) = coreState b := by
  intro us
  induction us with
  | nil =>
    intro b h
    rfl
  | cons s rest ih =>
    obtain ⟨ls, row, col⟩ := s
    intro b h
    have hb1 := undo_cons b ls row col rest h
    have key : redoTimes (undoTimes b (rest.length + 1)) (rest.length + 1) =
        (redo (redoTimes (undoTimes b (rest.length + 1)) rest.length)).2 :=
      redoTimes_succ _ _
    show coreState (redoTimes (undoTimes b (rest.length + 1)) (rest.length + 1)) = coreState b
    rw [key]
    have hstep : undoTimes b (rest.length + 1) = undoTimes (undo b).2 rest.length := rfl
    rw [hstep, hb1]
    have IH := ih { b with
      redo_stack := (b.lines, b.cursor_row, b.cursor_col) :: b.redo_stack,
      undo_stack := rest,
      lines := ls, cursor_row := row, cursor_col := col, modified := true } rfl
    generalize hZ : redoTimes (undoTimes { b with
      redo_stack := (b.lines, b.cursor_row, b.cursor_col) :: b.redo_stack,
      undo_stack := rest,
      lines := ls, cursor_row := row, cursor_col := col, modified := true }
      rest.length) rest.length = Z at IH ⊢
    have c1 : Z.lines = ls := congrArg (fun t => t.1.1) IH
    have c2 : Z.cursor_row = row := congrArg (fun t => t.1.2.1) IH
    have c3 : Z.cursor_col = col := congrArg (fun t => t.1.2.2) IH
    have c4 : Z.undo_stack = rest := congrArg (fun t => t.2.1) IH
    have c5 : Z.redo_stack = (b.lines, b.cursor_row, b.cursor_col) :: b.redo_stack :=
      congrArg (fun t => t.2.2.1) IH
    have c6 : Z.selection_start = b.selection_start := congrArg (fun t => t.2.2.2.1) IH
    have c7 : Z.selection_end = b.selection_end := congrArg (fun t => t.2.2.2.2) IH
    rw [redo_cons Z b.lines b.cursor_row b.cursor_col b.redo_stack c5]
    simp only [coreState, c1, c2, c3, c4, c6, c7, h]

theorem undoTimes_empties : ∀ (us : List Snapshot) (b : Buffer), b.undo_stack = us →
    (undoTimes b us.length).undo_stack = [] := by
  intro us
  induction us with
  | nil =>
    intro b h
    exact h
  | cons s rest ih =>
    obtain ⟨ls, row, col⟩ := s
    intro b h
    show (undoTimes (undo b).2 rest.length).undo_stack = []
    apply ih
    rw [undo_cons b ls row col rest h]

theorem applyOp_redo_empty (b : Buffer) (op : EditOp)
    (hredo : b.redo_stack = []) (hop : op ≠ EditOp.undoOp) :
    (applyOp b op).redo_stack = [] := by
  cases op with
  | moveCursorOp dr dc => exact hredo
  | setCursorOp r c => exact hredo
  | insertCharOp c m => rfl
  | insertNewlineOp => rfl
  | deleteCharOp =>
    simp only [applyOp, delete_char]
    split
    · rfl
    · split
      · rfl
      · rfl
  | backspaceOp =>
    simp only [applyOp, backspace]
    split
    · simp only [delete_char]
      split
      · rfl
      · split
        · rfl
        · rfl
    · split
      · simp only [delete_char]
        split
        · rfl
        · split
          · rfl
          · rfl
      · exact hredo
  | setSelectionOp s e => exact hredo
  | deleteSelectedOp =>
    simp only [applyOp, delete_selected_text]
    rcases b.selection_start with _ | ⟨r1, c1⟩
    · exact hredo
    · rcases b.selection_end with _ | ⟨r2, c2⟩
      · exact hredo
      · show (if r1 > r2 ∨ (r1 = r2 ∧ c1 > c2)
            then deleteSelCore (save_state b) r2 c2 r1 c1
            else deleteSelCore (save_state b) r1 c1 r2 c2).redo_stack = []
        have core : ∀ sr sc er ec,
            (deleteSelCore (save_state b) sr sc er ec).redo_stack = [] := by
          intro sr sc er ec
          simp only [deleteSelCore]
          split
          · split
            · rfl
            · rfl
          · rfl
        split
        · exact core _ _ _ _
        · exact core _ _ _ _
  | replaceTextOp s r a =>
    simp only [applyOp, replace_text]
    by_cases hs : s = []
    · rw [if_pos hs]
      exact hredo
    · rw [if_neg hs]
      have core : ∀ (br : Buffer × Nat), br.1.redo_stack = [] →
          ((if br.2 > 0 then
            ({ save_state br.1 with modified := true }, br.2) else br).1).redo_stack = [] := by
        intro br hbr
        split
        · rfl
        · exact hbr
      apply core
      split
      · exact hredo
      · split
        · exact hredo
        · exact hredo
  | loadOp content => rfl
  | undoOp => exact absurd rfl hop
  | redoOp =>
    simp only [applyOp]
    rw [redo_nil b hredo]
    exact hredo

theorem applyOps_redo_empty (b : Buffer) (ops : List EditOp)
    (hredo : b.redo_stack = []) (h : EditOp.undoOp ∉ ops) :
    (applyOps b ops).redo_stack = [] := by
  induction ops generalizing b with
  | nil => exact hredo
  | cons op rest ih =>
    rw [applyOps_cons]
    refine ih _ ?_ (fun hm => h (List.mem_cons_of_mem _ hm))
    exact applyOp_redo_empty b op hredo (fun he => h (he ▸ List.mem_cons_self _ _))

/-- C3: for a buffer reached from the fresh buffer by any sequence of
operations not containing `undo` (so its redo stack is empty, as after any
mutation), calling `undo()` until it reports failure — one call per history
entry plus the final failing call — and then calling `redo()` the same
number of times restores exactly the line sequence and the cursor that held
before the undos began. -/
theorem c3_undo_redo_roundtrip (ops : List EditOp) (h : EditOp.undoOp ∉ ops) :
    (redoTimes (undoTimes (applyOps initialBuffer ops)
        ((applyOps initialBuffer ops).undo_stack.length + 1))
        ((applyOps initialBuffer ops).undo_stack.length + 1)).lines =
      (applyOps initialBuffer ops).lines ∧
    (redoTimes (undoTimes (applyOps initialBuffer ops)
        ((applyOps initialBuffer ops).undo_stack.length + 1))
        ((applyOps initialBuffer ops).undo_stack.length + 1)).cursor_row =
      (applyOps initialBuffer ops).cursor_row ∧
    (redoTimes (undoTimes (applyOps initialBuffer ops)
        ((applyOps initialBuffer ops).undo_stack.length + 1))
        ((applyOps initialBuffer ops).undo_stack.length + 1)).cursor_col =
      (applyOps initialBuffer ops).cursor_col := by
  have hredo : (applyOps initialBuffer ops).redo_stack = [] :=
    applyOps_redo_empty initialBuffer ops rfl h
  have hcore := undo_redo_core (applyOps initialBuffer ops).undo_stack
    (applyOps initialBuffer ops) rfl
  have hempty := undoTimes_empties (applyOps initialBuffer ops).undo_stack
    (applyOps initialBuffer ops) rfl
  have h1 : undoTimes (applyOps initialBuffer ops)
      ((applyOps initialBuffer ops).undo_stack.length + 1) =
      undoTimes (applyOps initialBuffer ops)
        ((applyOps initialBuffer ops).undo_stack.length) := by
    rw [undoTimes_succ, undo_nil _ hempty]
  have hYr : (redoTimes (undoTimes (applyOps initialBuffer ops)
      ((applyOps initialBuffer ops).undo_stack.length))
      ((applyOps initialBuffer ops).undo_stack.length)).redo_stack = [] := by
    have := congrArg (fun t => t.2.2.1) hcore
    simpa [coreState, hredo] using this
  have h2 : redoTimes (undoTimes (applyOps initialBuffer ops)
      ((applyOps initialBuffer ops).undo_stack.length + 1))
      ((applyOps initialBuffer ops).undo_stack.length + 1) =
      redoTimes (undoTimes (applyOps initialBuffer ops)
        ((applyOps initialBuffer ops).undo_stack.length))
        ((applyOps initialBuffer ops).undo_stack.length) := by
    rw [h1, redoTimes_succ, redo_nil _ hYr]
  rw [h2]
  exact ⟨congrArg (fun t => t.1.1) hcore, congrArg (fun t => t.1.2.1) hcore,
    congrArg (fun t => t.1.2.2) hcore⟩

/-- Witness for C3 after a single insertion. -/
theorem c3_undo_redo_roundtrip_witness :
    (EditOp.undoOp ∉ [EditOp.insertCharOp 'a' true]) ∧
    ((redoTimes (undoTimes (applyOps initialBuffer [EditOp.insertCharOp 'a' true])
        ((applyOps initialBuffer [EditOp.insertCharOp 'a' true]).undo_stack.length + 1))
        ((applyOps initialBuffer [EditOp.insertCharOp 'a' true]).undo_stack.length + 1)).lines =
      (applyOps initialBuffer [EditOp.insertCharOp 'a' true]).lines ∧
    (redoTimes (undoTimes (applyOps initialBuffer [EditOp.insertCharOp 'a' true])
        ((applyOps initialBuffer [EditOp.insertCharOp 'a' true]).undo_stack.length + 1))
        ((applyOps initialBuffer [EditOp.insertCharOp 'a' true]).undo_stack.length + 1)).cursor_row =
      (applyOps initialBuffer [EditOp.insertCharOp 'a' true]).cursor_row ∧
    (redoTimes (undoTimes (applyOps initialBuffer [EditOp.insertCharOp 'a' true])
        ((applyOps initialBuffer [EditOp.insertCharOp 'a' true]).undo_stack.length + 1))
        ((applyOps initialBuffer [EditOp.insertCharOp 'a' true]).undo_stack.length + 1)).cursor_col =
      (applyOps initialBuffer [EditOp.insertCharOp 'a' true]).cursor_col) :=
  ⟨by decide, c3_undo_redo_roundtrip [EditOp.insertCharOp 'a' true] (by decide)⟩

/-! ### C4: the save/load round trip, amended -/

/-- `pyReplace` changes nothing when the pattern's first character does not
occur in the text. -/
theorem pyReplace_head_notin (h : Char) (tl rep : List Char) :
    ∀ (s : List Char), h ∉ s → pyReplace s (h :: tl) rep = s := by
  intro s
  induction s with
  | nil => intro _; rfl
  | cons c rest ih =>
    intro hnot
    have hne : h ≠ c := fun he => hnot (he ▸ List.mem_cons_self _ _)
    show pyReplaceGo (h :: tl) rep (rest.length + 1) (c :: rest) = c :: rest
    rw [pyReplaceGo, if_neg]
    · rw [show pyReplaceGo (h :: tl) rep rest.length rest = pyReplace rest (h :: tl) rep from rfl,
        ih (fun hm => hnot (List.mem_cons_of_mem _ hm))]
    · rintro ⟨-, hpre⟩
      have : (h == c && tl.isPrefixOf rest) = true := hpre
      simp only [Bool.and_eq_true, beq_iff_eq] at this
      exact hne this.1

/-- `pyReplace` distributes over a prefix free of the pattern's first
character. -/
theorem pyReplace_append_notin (h : Char) (tl rep : List Char) :
    ∀ (l t : List Char), h ∉ l →
    pyReplace (l ++ t) (h :: tl) rep = l ++ pyReplace t (h :: tl) rep := by
  intro l
  induction l with
  | nil => intro t _; rfl
  | cons c rest ih =>
    intro t hnot
    have hne : h ≠ c := fun he => hnot (he ▸ List.mem_cons_self _ _)
    show pyReplaceGo (h :: tl) rep ((rest ++ t).length + 1) (c :: (rest ++ t)) =
      c :: rest ++ pyReplace t (h :: tl) rep
    rw [pyReplaceGo, if_neg]
    · rw [show pyReplaceGo (h :: tl) rep (rest ++ t).length (rest ++ t) =
          pyReplace (rest ++ t) (h :: tl) rep from rfl]
      rw [ih t (fun hm => hnot (List.mem_cons_of_mem _ hm))]
      simp
    · rintro ⟨-, hpre⟩
      have : (h == c && tl.isPrefixOf (rest ++ t)) = true := hpre
      simp only [Bool.and_eq_true, beq_iff_eq] at this
      exact hne this.1

/-- `pyReplace` rewrites a leading newline. -/
theorem pyReplace_lf_cons (sep : List Char) (t : List Char) :
    pyReplace ('\n' :: t) ['\n'] sep = sep ++ pyReplace t ['\n'] sep := by
  show pyReplaceGo ['\n'] sep (t.length + 1) ('\n' :: t) = _
  rw [pyReplaceGo, if_pos]
  · rfl
  · exact ⟨by simp, by simp [List.isPrefixOf]⟩

/-- Replacing the separator in an LF-joined line list rebuilds the list
joined with the new separator, provided no line contains a newline. -/
theorem pyReplace_lf_join (sep : List Char) :
    ∀ (L : List (List Char)), (∀ l ∈ L, '\n' ∉ l) →
    pyReplace (pyJoin ['\n'] L) ['\n'] sep = pyJoin sep L := by
  intro L
  induction L with
  | nil => intro _; rfl
  | cons l rest ih =>
    intro hL
    cases rest with
    | nil =>
      show pyReplace l ['\n'] sep = l
      exact pyReplace_head_notin '\n' [] sep l (hL l (List.mem_cons_self _ _))
    | cons l2 rest2 =>
      have hjoin : pyJoin ['\n'] (l :: l2 :: rest2) =
          l ++ ['\n'] ++ pyJoin ['\n'] (l2 :: rest2) := rfl
      rw [hjoin, List.append_assoc, List.singleton_append]
      have hl : '\n' ∉ l := hL l (List.mem_cons_self _ _)
      rw [pyReplace_append_notin '\n' [] sep l _ hl]
      rw [pyReplace_lf_cons]
      rw [ih (fun x hx => hL x (List.mem_cons_of_mem _ hx))]
      show l ++ (sep ++ pyJoin sep (l2 :: rest2)) = pyJoin sep (l :: l2 :: rest2)
      rw [← List.append_assoc]
      rfl

/-- A character of a joined line list is a character of a line or of the
separator. -/
theorem mem_pyJoin (sep : List Char) (c : Char) :
    ∀ (L : List (List Char)), c ∈ pyJoin sep L →
    (∃ l ∈ L, c ∈ l) ∨ c ∈ sep := by
  intro L
  induction L with
  | nil => intro h; cases h
  | cons l rest ih =>
    cases rest with
    | nil =>
      intro h
      exact Or.inl ⟨l, List.mem_cons_self _ _, h⟩
    | cons l2 rest2 =>
      intro h
      rcases List.mem_append.mp h with h1 | h2
      · rcases List.mem_append.mp h1 with ha | hb
        · exact Or.inl ⟨l, List.mem_cons_self _ _, ha⟩
        · exact Or.inr hb
      · rcases ih h2 with ⟨x, hx, hcx⟩ | hs
        · exact Or.inl ⟨x, List.mem_cons_of_mem _ hx, hcx⟩
        · exact Or.inr hs

/-- Consuming a break-free prefix just accumulates it. -/
theorem splitlinesAux_append_nonbreak :
    ∀ (l acc s : List Char), (∀ c ∈ l, isLineBreak c = false) →
    splitlinesAux acc (l ++ s) = splitlinesAux (l.reverse ++ acc) s := by
  intro l
  induction l with
  | nil => intro acc s _; rfl
  | cons c rest ih =>
    intro acc s hl
    have hc : isLineBreak c = false := hl c (List.mem_cons_self _ _)
    have hcr : c ≠ '\r' := by
      intro he
      rw [he] at hc
      simp [isLineBreak] at hc
    have step : splitlinesAux acc (c :: (rest ++ s)) =
        splitlinesAux (c :: acc) (rest ++ s) := by
      cases hrs : rest ++ s with
      | nil => simp [splitlinesAux, hc]
      | cons d t => simp [splitlinesAux, hc, hcr]
    rw [List.cons_append, step, ih (c :: acc) s
      (fun d hd => hl d (List.mem_cons_of_mem _ hd))]
    simp

/-- The break step for a bare LF. -/
theorem splitlinesAux_lf (acc t : List Char) :
    splitlinesAux acc ('\n' :: t) = acc.reverse :: splitlinesAux [] t := by
  cases t with
  | nil => simp [splitlinesAux, isLineBreak]
  | cons d t2 => simp [splitlinesAux, isLineBreak]

/-- The break step for a CRLF pair. -/
theorem splitlinesAux_crlf (acc t : List Char) :
    splitlinesAux acc ('\r' :: '\n' :: t) = acc.reverse :: splitlinesAux [] t := rfl

/-- The break step for a bare CR not followed by LF. -/
theorem splitlinesAux_cr (acc t : List Char) (h : t.head? ≠ some '\n') :
    splitlinesAux acc ('\r' :: t) = acc.reverse :: splitlinesAux [] t := by
  cases t with
  | nil => simp [splitlinesAux, isLineBreak]
  | cons d t2 =>
    have hd : d ≠ '\n' := by
      intro he
      exact h (by rw [he]; rfl)
    simp [splitlinesAux, isLineBreak, hd]

/-- The head of a joined list starts with the first line's first character
when that line is non-empty. -/
theorem pyJoin_head_cons (sep : List Char) (c : Char) (x : List Char)
    (L : List (List Char)) :
    (pyJoin sep ((c :: x) :: L)).head? = some c := by
  cases L with
  | nil => rfl
  | cons l2 rest => rfl

/-- Splitting a joined break-free line list recovers the lines, as long as
the final line is non-empty (a trailing terminator would be dropped). -/
theorem splitlinesAux_pyJoin (sep : List Char)
    (hsep : ∀ (acc t : List Char), (t.head? = some '\n' → sep ≠ ['\r']) →
      splitlinesAux acc (sep ++ t) = acc.reverse :: splitlinesAux [] t) :
    ∀ (L : List (List Char)) (l : List Char) (acc : List Char),
      (∀ c ∈ l, isLineBreak c = false) →
      (∀ l2 ∈ L, ∀ c ∈ l2, isLineBreak c = false) →
      (l :: L).getLast? ≠ some [] →
      splitlinesAux acc (pyJoin sep (l :: L)) = (acc.reverse ++ l) :: L := by
  intro L
  induction L with
  | nil =>
    intro l acc hl _ hlast
    have hlne : l ≠ [] := by
      intro he
      exact hlast (by rw [he]; rfl)
    show splitlinesAux acc l = [acc.reverse ++ l]
    have hstep := splitlinesAux_append_nonbreak l acc [] hl
    rw [List.append_nil] at hstep
    rw [hstep]
    have hne2 : l.reverse ++ acc ≠ [] := by
      intro he
      rcases List.append_eq_nil.mp he with ⟨h1, -⟩
      exact hlne (by simpa using congrArg List.reverse h1)
    show (if l.reverse ++ acc = [] then [] else [(l.reverse ++ acc).reverse]) = _
    rw [if_neg hne2]
    simp
  | cons l2 rest ih =>
    intro l acc hl hL hlast
    have hjoin : pyJoin sep (l :: l2 :: rest) =
        l ++ sep ++ pyJoin sep (l2 :: rest) := rfl
    rw [hjoin, List.append_assoc, splitlinesAux_append_nonbreak l acc _ hl]
    have hcond : (pyJoin sep (l2 :: rest)).head? = some '\n' → sep ≠ ['\r'] := by
      cases l2 with
      | cons c x =>
        rw [pyJoin_head_cons]
        intro he
        have hc2 : c = '\n' := by injection he
        have hc := hL (c :: x) (List.mem_cons_self _ _) c (List.mem_cons_self _ _)
        rw [hc2] at hc
        simp [isLineBreak] at hc
      | nil =>
        cases rest with
        | nil =>
          exfalso
          apply hlast
          rw [List.getLast?_cons_cons]
          simp
        | cons l3 rest3 =>
          have hshape : pyJoin sep ([] :: l3 :: rest3) =
              sep ++ pyJoin sep (l3 :: rest3) := rfl
          rw [hshape]
          intro he hsepeq
          rw [hsepeq] at he
          simp at he
    rw [hsep _ _ hcond]
    rw [ih l2 [] (hL l2 (List.mem_cons_self _ _))
      (fun x hx => hL x (List.mem_cons_of_mem _ hx))
      (by rw [← List.getLast?_cons_cons (a := l)]; exact hlast)]
    simp

theorem latin1_roundtrip (s : List Char) (h : ∀ c ∈ s, c.toNat < 256) :
    latin1Encode s = some (s.map Char.toNat) ∧
    latin1Decode (s.map Char.toNat) = s := by
  constructor
  · simp only [latin1Encode]
    rw [if_pos]
    simpa [List.all_eq_true] using h
  · simp only [latin1Decode, List.map_map]
    have hmap : ∀ c ∈ s, (Char.ofNat ∘ Char.toNat) c = id c := by
      intro c _
      simp [Char.ofNat_toNat]
    rw [List.map_congr_left hmap, List.map_id]

theorem convertLineEndings_join (lines : List (List Char)) (style : LineEnding)
    (hbf : ∀ l ∈ lines, ∀ c ∈ l, isLineBreak c = false) :
    convertLineEndings (pyJoin ['\n'] lines) style =
      pyJoin (lineEndingChars style) lines := by
  have hcr : '\r' ∉ pyJoin ['\n'] lines := by
    intro hm
    rcases mem_pyJoin ['\n'] '\r' lines hm with ⟨l, hl, hc⟩ | hs
    · have := hbf l hl '\r' hc
      simp [isLineBreak] at this
    · simp at hs
  have h1 : pyReplace (pyJoin ['\n'] lines) ['\r', '\n'] ['\n'] = pyJoin ['\n'] lines :=
    pyReplace_head_notin '\r' ['\n'] ['\n'] _ hcr
  have h2 : pyReplace (pyJoin ['\n'] lines) ['\r'] ['\n'] = pyJoin ['\n'] lines :=
    pyReplace_head_notin '\r' [] ['\n'] _ hcr
  have hlf : ∀ l ∈ lines, '\n' ∉ l := by
    intro l hl hm
    have := hbf l hl '\n' hm
    simp [isLineBreak] at this
  cases style with
  | LF =>
    simp only [convertLineEndings, lineEndingChars]
    rw [h1, h2]
    rw [if_neg (by simp)]
  | CR =>
    simp only [convertLineEndings, lineEndingChars]
    rw [h1, h2]
    rw [if_pos (by simp)]
    exact pyReplace_lf_join ['\r'] lines hlf
  | CRLF =>
    simp only [convertLineEndings, lineEndingChars]
    rw [h1, h2]
    rw [if_pos (by simp)]
    exact pyReplace_lf_join ['\r', '\n'] lines hlf

theorem pySplitlines_pyJoin (lines : List (List Char)) (style : LineEnding)
    (hne : lines ≠ [])
    (hbf : ∀ l ∈ lines, ∀ c ∈ l, isLineBreak c = false)
    (hlast : lines.getLast? ≠ some []) :
    pySplitlines (pyJoin (lineEndingChars style) lines) = lines := by
  obtain ⟨l, L, rfl⟩ : ∃ l L, lines = l :: L := by
    cases lines with
    | nil => exact absurd rfl hne
    | cons l L => exact ⟨l, L, rfl⟩
  have hsep : ∀ (acc t : List Char),
      (t.head? = some '\n' → lineEndingChars style ≠ ['\r']) →
      splitlinesAux acc (lineEndingChars style ++ t) =
        acc.reverse :: splitlinesAux [] t := by
    intro acc t hcond
    cases style with
    | LF => exact splitlinesAux_lf acc t
    | CR =>
      refine splitlinesAux_cr acc t ?_
      intro he
      exact hcond he rfl
    | CRLF => exact splitlinesAux_crlf acc t
  have hmain := splitlinesAux_pyJoin (lineEndingChars style) hsep L l []
    (hbf l (List.mem_cons_self _ _))
    (fun x hx => hbf x (List.mem_cons_of_mem _ hx)) hlast
  simpa [pySplitlines] using hmain

/-- C4 amended: for a buffer whose lines contain no line-break character and
are latin-1 representable, and whose last line is non-empty (or which is the
single empty line), saving with any line-ending style through the latin-1
codec and loading the bytes back yields exactly the original lines.  The
counterexample shows the restriction on the last line is necessary: a
trailing empty line is lost because the final line terminator is dropped on
load. -/
theorem c4_round_trip_amended (lines : List (List Char)) (style : LineEnding)
    (hne : lines ≠ [])
    (hbf : ∀ l ∈ lines, ∀ c ∈ l, isLineBreak c = false ∧ c.toNat < 256)
    (hlast : lines.getLast? ≠ some [] ∨ lines = [[]]) :
    saveLoadRoundTrip lines style = some lines := by
  have hbf1 : ∀ l ∈ lines, ∀ c ∈ l, isLineBreak c = false :=
    fun l hl c hc => (hbf l hl c hc).1
  have hconv := convertLineEndings_join lines style hbf1
  have hchars : ∀ c ∈ pyJoin (lineEndingChars style) lines, c.toNat < 256 := by
    intro c hc
    rcases mem_pyJoin _ c lines hc with ⟨l, hl, hcl⟩ | hs
    · exact (hbf l hl c hcl).2
    · cases style with
      | LF =>
        simp [lineEndingChars] at hs
        rw [hs]
        decide
      | CR =>
        simp [lineEndingChars] at hs
        rw [hs]
        decide
      | CRLF =>
        simp [lineEndingChars] at hs
        rcases hs with hs | hs <;> rw [hs] <;> decide
  obtain ⟨henc, hdec⟩ := latin1_roundtrip _ hchars
  simp only [saveLoadRoundTrip, saveBytes, hconv, henc]
  show some (loadLines (latin1Decode
    (List.map Char.toNat (pyJoin (lineEndingChars style) lines)))) = some lines
  rw [hdec]
  rcases hlast with hlast | rfl
  · have hload : loadLines (pyJoin (lineEndingChars style) lines) = lines := by
      have hsplit := pySplitlines_pyJoin lines style hne hbf1 hlast
      simp only [loadLines, hsplit]
      rw [if_neg hne]
    rw [hload]
  · rfl

/-- Witness for the amended C4 on the two-line buffer from the spec's
scenario. -/
theorem c4_round_trip_amended_witness :
    (([['H', 'i'], ['!']] : List (List Char)) ≠ [] ∧
      (∀ l ∈ [['H', 'i'], ['!']], ∀ c ∈ l, isLineBreak c = false ∧ c.toNat < 256) ∧
      (([['H', 'i'], ['!']] : List (List Char)).getLast? ≠ some [] ∨
        [['H', 'i'], ['!']] = [[]])) ∧
    saveLoadRoundTrip [['H', 'i'], ['!']] LineEnding.CRLF = some [['H', 'i'], ['!']] :=
  ⟨⟨by decide, by decide, by decide⟩,
    c4_round_trip_amended [['H', 'i'], ['!']] LineEnding.CRLF (by decide) (by decide) (by decide)⟩

/-! ### Occurrences of a search string, and the `find`/`count` kernels -/

/-- The search string occurs (as a literal substring) in row `r` at column
`c` of the line list. -/
abbrev occursAt (lines : List (List Char)) (r c : Nat) (s : List Char) : Prop :=
  s.isPrefixOf ((lines[r]?.getD []).drop c) = true

theorem isPrefixOf_nil_iff (s : List Char) : s.isPrefixOf ([] : List Char) = true ↔ s = [] := by
  cases s <;> simp [List.isPrefixOf]

theorem firstMatch_some_spec (pat : List Char) :
    ∀ (s : List Char) (i : Nat), firstMatch pat s = some i →
    pat.isPrefixOf (s.drop i) = true ∧ ∀ j < i, ¬ pat.isPrefixOf (s.drop j) = true := by
  intro s
  induction s with
  | nil =>
    intro i h
    simp only [firstMatch] at h
    split at h
    · rename_i hp
      cases h
      exact ⟨hp, by omega⟩
    · cases h
  | cons c rest ih =>
    intro i h
    simp only [firstMatch] at h
    split at h
    · rename_i hp
      cases h
      exact ⟨hp, by omega⟩
    · rename_i hp
      rcases Option.map_eq_some'.mp h with ⟨i', hi', rfl⟩
      obtain ⟨hm, hmin⟩ := ih i' hi'
      refine ⟨hm, ?_⟩
      intro j hj
      cases j with
      | zero => exact fun hc => hp hc
      | succ j' => exact hmin j' (by omega)

theorem firstMatch_none_spec (pat : List Char) :
    ∀ (s : List Char), firstMatch pat s = none →
    ∀ j, ¬ pat.isPrefixOf (s.drop j) = true := by
  intro s
  induction s with
  | nil =>
    intro h j
    simp only [firstMatch] at h
    split at h
    · cases h
    · rename_i hp
      simpa using hp
  | cons c rest ih =>
    intro h j
    simp only [firstMatch] at h
    split at h
    · cases h
    · rename_i hp
      have hrest : firstMatch pat rest = none := by
        cases hr : firstMatch pat rest with
        | none => rfl
        | some k => rw [hr] at h; cases h
      cases j with
      | zero => exact hp
      | succ j' => exact ih hrest j'

theorem pyFind_some_spec (line pat : List Char) (start p : Nat)
    (h : pyFind line pat start = some p) :
    start ≤ p ∧ pat.isPrefixOf (line.drop p) = true ∧
      ∀ j, start ≤ j → j < p → ¬ pat.isPrefixOf (line.drop j) = true := by
  simp only [pyFind] at h
  rcases Option.map_eq_some'.mp h with ⟨i, hi, rfl⟩
  obtain ⟨hm, hmin⟩ := firstMatch_some_spec pat (line.drop start) i hi
  rw [List.drop_drop] at hm
  refine ⟨by omega, by rw [Nat.add_comm start i] at hm; exact hm, ?_⟩
  intro j hj1 hj2
  have hlow := hmin (j - start) (by omega)
  rw [List.drop_drop] at hlow
  have hje : start + (j - start) = j := by omega
  rw [hje] at hlow
  exact hlow

theorem pyFind_none_spec (line pat : List Char) (start : Nat)
    (h : pyFind line pat start = none) :
    ∀ j, start ≤ j → ¬ pat.isPrefixOf (line.drop j) = true := by
  intro j hj
  simp only [pyFind, Option.map_eq_none'] at h
  have hlow := firstMatch_none_spec pat (line.drop start) h (j - start)
  rw [List.drop_drop] at hlow
  have hje : start + (j - start) = j := by omega
  rw [hje] at hlow
  exact hlow

theorem pyFind_exists (line pat : List Char) (start j : Nat)
    (hj : start ≤ j) (hm : pat.isPrefixOf (line.drop j) = true) :
    ∃ p, pyFind line pat start = some p ∧ start ≤ p ∧ p ≤ j ∧
      pat.isPrefixOf (line.drop p) = true := by
  cases h : pyFind line pat start with
  | none => exact absurd hm (pyFind_none_spec line pat start h j hj)
  | some p =>
    obtain ⟨h1, h2, h3⟩ := pyFind_some_spec line pat start p h
    refine ⟨p, rfl, h1, ?_, h2⟩
    by_contra hlt
    exact h3 j hj (by omega) hm

theorem occursAt_row_lt (lines : List (List Char)) (r c : Nat) (s : List Char)
    (h : occursAt lines r c s) (hs : s ≠ []) : r < lines.length := by
  by_contra hge
  have hnone : lines[r]? = none := List.getElem?_eq_none (by omega)
  unfold occursAt at h
  rw [hnone] at h
  simp only [Option.getD_none, List.drop_nil] at h
  exact hs ((isPrefixOf_nil_iff s).mp h)

theorem occursAt_col_lt (lines : List (List Char)) (r c : Nat) (s : List Char)
    (h : occursAt lines r c s) (hs : s ≠ []) : c < (lines[r]?.getD []).length := by
  by_contra hge
  have hdrop : (lines[r]?.getD []).drop c = [] := List.drop_eq_nil_of_le (by omega)
  unfold occursAt at h
  rw [hdrop] at h
  exact hs ((isPrefixOf_nil_iff s).mp h)

/-! ### find_text returns none when the search string occurs nowhere -/

theorem findFwdGo_none_of_no_occ (lines : List (List Char)) (s : List Char)
    (sr sc : Nat) (hno : ∀ r c, ¬ occursAt lines r c s) :
    ∀ (fuel row : Nat), findFwdGo lines s sr sc row fuel = none := by
  intro fuel
  induction fuel with
  | zero => intro row; rfl
  | succ fuel ih =>
    intro row
    show (match pyFind ((lines[row]?).getD []) s (if row = sr then sc else 0) with
      | some pos => some (row, pos)
      | none => findFwdGo lines s sr sc (row + 1) fuel) = none
    cases hf : pyFind ((lines[row]?).getD []) s (if row = sr then sc else 0) with
    | some p =>
      obtain ⟨-, hm, -⟩ := pyFind_some_spec _ _ _ _ hf
      exact absurd hm (hno row p)
    | none => exact ih (row + 1)

theorem findWrapGo_none_of_no_occ (lines : List (List Char)) (s : List Char)
    (sr sc : Nat) (hno : ∀ r c, ¬ occursAt lines r c s) :
    ∀ (fuel row : Nat), findWrapGo lines s sr sc row fuel = none := by
  intro fuel
  induction fuel with
  | zero => intro row; rfl
  | succ fuel ih =>
    intro row
    show (match pyFind ((lines[row]?).getD []) s 0 with
      | some pos => if pos < (if row = sr then sc else ((lines[row]?).getD []).length)
          then some (row, pos) else findWrapGo lines s sr sc (row + 1) fuel
      | none => findWrapGo lines s sr sc (row + 1) fuel) = none
    cases hf : pyFind ((lines[row]?).getD []) s 0 with
    | some p =>
      obtain ⟨-, hm, -⟩ := pyFind_some_spec _ _ _ _ hf
      exact absurd hm (hno row p)
    | none => exact ih (row + 1)

/-- `find_text` reports "not found" when the search string occurs nowhere
in the buffer, whatever the start position. -/
theorem find_text_none_of_no_occ (b : Buffer) (s : List Char)
    (start : Option (Nat × Nat)) (hno : ∀ r c, ¬ occursAt b.lines r c s) :
    find_text b s start = none := by
  simp only [find_text]
  by_cases hs : s = []
  · rw [if_pos hs]
  · rw [if_neg hs]
    rw [findFwdGo_none_of_no_occ b.lines s (start.getD (b.cursor_row, b.cursor_col)).1
      (start.getD (b.cursor_row, b.cursor_col)).2 hno
      (b.lines.length - (start.getD (b.cursor_row, b.cursor_col)).1)
      (start.getD (b.cursor_row, b.cursor_col)).1]
    show findWrapGo b.lines s (start.getD (b.cursor_row, b.cursor_col)).1
      (start.getD (b.cursor_row, b.cursor_col)).2 0
      ((start.getD (b.cursor_row, b.cursor_col)).1 + 1) = none
    exact findWrapGo_none_of_no_occ b.lines s _ _ hno _ _

/-! ### The replace-all count -/

theorem pyCountGo_zero (pat : List Char) :
    ∀ (fuel : Nat) (l : List Char), (∀ j, ¬ pat.isPrefixOf (l.drop j) = true) →
    pyCountGo pat fuel l = 0 := by
  intro fuel
  induction fuel with
  | zero =>
    intro l _
    cases l <;> rfl
  | succ fuel ih =>
    intro l h
    cases l with
    | nil => rfl
    | cons c rest =>
      show (if pat ≠ [] ∧ pat.isPrefixOf (c :: rest) then
          1 + pyCountGo pat fuel ((c :: rest).drop pat.length)
        else pyCountGo pat fuel rest) = 0
      rw [if_neg]
      · exact ih rest (fun j => h (j + 1))
      · rintro ⟨-, hp⟩
        exact h 0 hp

theorem firstMatch_none_of_not_contains (l s : List Char)
    (h : containsSub l s = false) : firstMatch s l = none := by
  cases hfm : firstMatch s l with
  | none => rfl
  | some k =>
    exfalso
    rw [containsSub, hfm] at h
    cases h

theorem pyCount_zero_of_not_contains (l s : List Char)
    (h : containsSub l s = false) : pyCount l s = 0 :=
  pyCountGo_zero s l.length l
    (firstMatch_none_spec s l (firstMatch_none_of_not_contains l s h))

theorem replaceAllLines_count (s r : List Char) :
    ∀ (ls : List (List Char)),
    (replaceAllLines s r ls).2 = (ls.map (fun l => pyCount l s)).sum := by
  intro ls
  induction ls with
  | nil => rfl
  | cons l rest ih =>
    show (if containsSub l s then
        (pyReplace l s r :: (replaceAllLines s r rest).1,
          (replaceAllLines s r rest).2 + pyCount l s)
      else (l :: (replaceAllLines s r rest).1, (replaceAllLines s r rest).2)).2 =
      (pyCount l s :: rest.map (fun l => pyCount l s)).sum
    by_cases hc : containsSub l s
    · rw [if_pos hc]
      show (replaceAllLines s r rest).2 + pyCount l s = _
      rw [ih, List.sum_cons]
      omega
    · rw [if_neg (by simp [hc])]
      show (replaceAllLines s r rest).2 = _
      rw [ih, List.sum_cons, pyCount_zero_of_not_contains l s (by simpa using hc)]
      omega

theorem replace_text_all_count (b : Buffer) (s r : List Char) (hs : s ≠ []) :
    (replace_text b s r true).2 = (b.lines.map (fun l => pyCount l s)).sum := by
  simp only [replace_text]
  rw [if_neg hs, if_pos trivial]
  split
  · exact replaceAllLines_count s r b.lines
  · exact replaceAllLines_count s r b.lines

theorem replace_text_all_lines (b : Buffer) (s r : List Char) (hs : s ≠ []) :
    (replace_text b s r true).1.lines = (replaceAllLines s r b.lines).1 := by
  simp only [replace_text]
  rw [if_neg hs, if_pos trivial]
  split
  · rfl
  · rfl

/-! ### Single-character replace-all removes every occurrence -/

theorem mem_of_singleton_isPrefixOf (c : Char) (t : List Char)
    (h : ([c]).isPrefixOf t = true) : c ∈ t := by
  cases t with
  | nil => simp [List.isPrefixOf] at h
  | cons d rest =>
    have : (c == d && List.isPrefixOf [] rest) = true := h
    simp only [List.isPrefixOf, Bool.and_true, beq_iff_eq] at this
    rw [this]
    exact List.mem_cons_self _ _

theorem not_mem_pyReplaceGo_singleton (c : Char) (r : List Char) (hr : c ∉ r) :
    ∀ (fuel : Nat) (l : List Char), l.length ≤ fuel → c ∉ pyReplaceGo [c] r fuel l := by
  intro fuel
  induction fuel with
  | zero =>
    intro l hl
    have : l = [] := List.length_eq_zero.mp (by omega)
    rw [this]
    intro hm
    cases hm
  | succ fuel ih =>
    intro l hl
    cases l with
    | nil => intro hm; cases hm
    | cons d rest =>
      show c ∉ (if ([c] : List Char) ≠ [] ∧ ([c]).isPrefixOf (d :: rest) then
          r ++ pyReplaceGo [c] r fuel ((d :: rest).drop 1)
        else d :: pyReplaceGo [c] r fuel rest)
      by_cases hp : c = d
      · rw [if_pos]
        · intro hm
          rcases List.mem_append.mp hm with hm | hm
          · exact hr hm
          · exact ih rest (by simpa using hl) hm
        · refine ⟨by simp, ?_⟩
          show (c == d && List.isPrefixOf [] rest) = true
          simp [hp]
      · rw [if_neg]
        · intro hm
          rcases List.mem_cons.mp hm with rfl | hm
          · exact hp rfl
          · exact ih rest (by simpa using hl) hm
        · rintro ⟨-, hpre⟩
          have : (c == d && List.isPrefixOf [] rest) = true := hpre
          simp only [Bool.and_eq_true, beq_iff_eq] at this
          exact hp this.1

theorem contains_of_mem (c : Char) :
    ∀ (l : List Char), c ∈ l → containsSub l [c] = true := by
  intro l
  induction l with
  | nil =>
    intro hm
    cases hm
  | cons d rest ih =>
    intro hm
    simp only [containsSub, firstMatch]
    by_cases hp : ([c]).isPrefixOf (d :: rest) = true
    · rw [if_pos hp]
      rfl
    · rw [if_neg hp]
      have hcd : c ≠ d := by
        intro he
        apply hp
        show (c == d && List.isPrefixOf [] rest) = true
        simp [he]
      rcases List.mem_cons.mp hm with rfl | hm2
      · exact absurd rfl hcd
      · have hres := ih hm2
        simp only [containsSub] at hres
        simpa using hres

theorem not_mem_of_not_contains (c : Char) (l : List Char)
    (h : containsSub l [c] = false) : c ∉ l := by
  intro hm
  rw [contains_of_mem c l hm] at h
  cases h

theorem replaceAllLines_removes_char (c : Char) (r : List Char) (hr : c ∉ r) :
    ∀ (ls : List (List Char)), ∀ l2 ∈ (replaceAllLines [c] r ls).1, c ∉ l2 := by
  intro ls
  induction ls with
  | nil =>
    intro l2 h
    cases h
  | cons l rest ih =>
    intro l2 h
    by_cases hc : containsSub l [c] = true
    · have hsplit : (replaceAllLines [c] r (l :: rest)).1 =
          pyReplace l [c] r :: (replaceAllLines [c] r rest).1 := by
        simp only [replaceAllLines]
        rw [if_pos hc]
      rw [hsplit] at h
      rcases List.mem_cons.mp h with rfl | h
      · exact not_mem_pyReplaceGo_singleton c r hr l.length l (Nat.le_refl _)
      · exact ih l2 h
    · have hsplit : (replaceAllLines [c] r (l :: rest)).1 =
          l :: (replaceAllLines [c] r rest).1 := by
        simp only [replaceAllLines]
        rw [if_neg hc]
      rw [hsplit] at h
      rcases List.mem_cons.mp h with rfl | h
      · exact not_mem_of_not_contains c l2 (by simpa using hc)
      · exact ih l2 h

/-- C6 amended: `replace_text(search, repl, all)` returns exactly the total
of the per-line non-overlapping occurrence counts — as claimed — and the
claim's second clause holds for single-character searches: when the search
is one character that the replacement does not contain, `find_text`
afterwards finds nothing from any start position.  (For longer searches the
clause fails as stated, because the replacement can abut kept text to form
a fresh occurrence — see the counterexample.) -/
theorem c6_replace_all_count_amended (b : Buffer) (s r : List Char) (hs : s ≠ []) :
    (replace_text b s r true).2 = (b.lines.map (fun l => pyCount l s)).sum ∧
    (∀ c, s = [c] → containsSub r s = false →
      ∀ start, find_text (replace_text b s r true).1 s start = none) := by
  refine ⟨replace_text_all_count b s r hs, ?_⟩
  rintro c rfl hrc start
  have hrc2 : c ∉ r := not_mem_of_not_contains c r hrc
  apply find_text_none_of_no_occ
  intro row col hocc
  have hrow := occursAt_row_lt _ _ _ _ hocc hs
  unfold occursAt at hocc
  have hcmem : c ∈ (replace_text b [c] r true).1.lines[row]?.getD [] := by
    have := mem_of_singleton_isPrefixOf c _ hocc
    exact List.drop_subset _ _ this
  rw [replace_text_all_lines b [c] r hs] at hcmem
  have hline : (replaceAllLines [c] r b.lines).1[row]?.getD [] ∈
      (replaceAllLines [c] r b.lines).1 := by
    rw [replace_text_all_lines b [c] r hs] at hrow
    have hlt : row < (replaceAllLines [c] r b.lines).1.length := hrow
    have : (replaceAllLines [c] r b.lines).1[row]? =
        some ((replaceAllLines [c] r b.lines).1[row]) := List.getElem?_eq_getElem hlt
    rw [this]
    exact List.getElem_mem hlt
  exact replaceAllLines_removes_char c r hrc2 b.lines _ hline hcmem

/-- Witness for the amended C6: replacing the single character "b" by "X"
in ["abc", "bb"] counts 3 occurrences and leaves nothing to find. -/
theorem c6_replace_all_count_amended_witness :
    ((['b'] : List Char) ≠ []) ∧
    (replace_text { initialBuffer with lines := [['a', 'b', 'c'], ['b', 'b']] }
        ['b'] ['X'] true).2 =
      (([['a', 'b', 'c'], ['b', 'b']] : List (List Char)).map
        (fun l => pyCount l ['b'])).sum ∧
    find_text (replace_text { initialBuffer with lines := [['a', 'b', 'c'], ['b', 'b']] }
        ['b'] ['X'] true).1 ['b'] none = none :=
  ⟨by decide,
    (c6_replace_all_count_amended _ ['b'] ['X'] (by decide)).1,
    (c6_replace_all_count_amended _ ['b'] ['X'] (by decide)).2 'b' rfl (by decide) none⟩

/-! ### C5: find_text at and after the last occurrence -/

/-- Reading order on buffer positions. -/
abbrev posLe (p q : Nat × Nat) : Prop :=
  p.1 < q.1 ∨ (p.1 = q.1 ∧ p.2 ≤ q.2)

/-- Bounded check sufficing for a property of all occurrences: any
occurrence of a non-empty search string lies at a valid row and column. -/
theorem forall_occ_of_bounded (lines : List (List Char)) (s : List Char)
    (hs : s ≠ []) (P : Nat → Nat → Prop)
    (h : ∀ r, r < lines.length → ∀ c, c < (lines[r]?.getD []).length →
      occursAt lines r c s → P r c) :
    ∀ r c, occursAt lines r c s → P r c := by
  intro r c hocc
  exact h r (occursAt_row_lt _ _ _ _ hocc hs) c (occursAt_col_lt _ _ _ _ hocc hs) hocc

theorem findFwdGo_at_start (lines : List (List Char)) (s : List Char)
    (lr lc : Nat) (k : Nat)
    (hfind : pyFind ((lines[lr]?).getD []) s lc = some lc) :
    findFwdGo lines s lr lc lr (k + 1) = some (lr, lc) := by
  show (match pyFind ((lines[lr]?).getD []) s (if lr = lr then lc else 0) with
    | some pos => some (lr, pos)
    | none => findFwdGo lines s lr lc (lr + 1) k) = some (lr, lc)
  rw [if_pos rfl, hfind]

theorem findFwdGo_none_past_last (lines : List (List Char)) (s : List Char)
    (lr lc : Nat)
    (hmax : ∀ r c, occursAt lines r c s → posLe (r, c) (lr, lc)) :
    ∀ (fuel row : Nat), lr ≤ row →
    findFwdGo lines s lr (lc + 1) row fuel = none := by
  intro fuel
  induction fuel with
  | zero =>
    intro row _
    rfl
  | succ fuel ih =>
    intro row hrow
    show (match pyFind ((lines[row]?).getD []) s (if row = lr then lc + 1 else 0) with
      | some pos => some (row, pos)
      | none => findFwdGo lines s lr (lc + 1) (row + 1) fuel) = none
    cases hf : pyFind ((lines[row]?).getD []) s (if row = lr then lc + 1 else 0) with
    | some p =>
      exfalso
      obtain ⟨hstart, hm, -⟩ := pyFind_some_spec _ _ _ _ hf
      have hocc : occursAt lines row p s := hm
      have hle := hmax row p hocc
      rcases hle with hlt | ⟨heq, hple⟩
      · simp only at hlt
        omega
      · simp only at heq hple
        subst heq
        rw [if_pos rfl] at hstart
        omega
    | none => exact ih (row + 1) (by omega)

theorem findWrapGo_finds_first (lines : List (List Char)) (s : List Char)
    (lr lc fr fc : Nat) (hs : s ≠ [])
    (hfo : occursAt lines fr fc s)
    (hmin : ∀ r c, occursAt lines r c s → posLe (fr, fc) (r, c))
    (hfrle : fr ≤ lr) (hfcle : fr = lr → fc ≤ lc) :
    ∀ (fuel row : Nat), row ≤ fr → fr < row + fuel →
    findWrapGo lines s lr (lc + 1) row fuel = some (fr, fc) := by
  intro fuel
  induction fuel with
  | zero =>
    intro row h1 h2
    omega
  | succ fuel ih =>
    intro row h1 h2
    show (match pyFind ((lines[row]?).getD []) s 0 with
      | some pos => if pos < (if row = lr then lc + 1 else ((lines[row]?).getD []).length)
          then some (row, pos) else findWrapGo lines s lr (lc + 1) (row + 1) fuel
      | none => findWrapGo lines s lr (lc + 1) (row + 1) fuel) = some (fr, fc)
    by_cases hrow : row = fr
    · subst hrow
      obtain ⟨p, hp, -, hple, hmatch⟩ :=
        pyFind_exists ((lines[row]?).getD []) s 0 fc (Nat.zero_le _) hfo
      have hocc : occursAt lines row p s := hmatch
      have hge : fc ≤ p := by
        rcases hmin row p hocc with hlt | ⟨-, hle⟩
        · simp only at hlt
          omega
        · exact hle
      have hpfc : p = fc := by omega
      subst hpfc
      rw [hp]
      show (if p < (if row = lr then lc + 1 else ((lines[row]?).getD []).length)
          then some (row, p) else findWrapGo lines s lr (lc + 1) (row + 1) fuel) =
        some (row, p)
      by_cases hlr : row = lr
      · rw [if_pos hlr, if_pos ((hfcle hlr).trans_lt (Nat.lt_succ_self lc))]
      · rw [if_neg hlr, if_pos (occursAt_col_lt lines row p s hocc hs)]
    · have hrlt : row < fr := by omega
      cases hf : pyFind ((lines[row]?).getD []) s 0 with
      | some p =>
        exfalso
        obtain ⟨-, hm, -⟩ := pyFind_some_spec _ _ _ _ hf
        have hocc : occursAt lines row p s := hm
        rcases hmin row p hocc with hlt | ⟨heq, -⟩
        · simp only at hlt
          omega
        · simp only at heq
          omega
      | none => exact ih (row + 1) (by omega) (by omega)

/-- C5 amended: for a non-empty search string, `find_text` started
*exactly* at the last occurrence returns that same last occurrence (the
forward scan matches at the start position itself, so no wrap happens
there); started one column past the last occurrence it wraps around to the
first occurrence; and it returns the empty optional whenever the string
occurs nowhere. -/
theorem c5_find_wrap_amended (b : Buffer) (s : List Char) (hs : s ≠ []) :
    (∀ lr lc fr fc : Nat,
      occursAt b.lines lr lc s →
      (∀ r c, occursAt b.lines r c s → posLe (r, c) (lr, lc)) →
      occursAt b.lines fr fc s →
      (∀ r c, occursAt b.lines r c s → posLe (fr, fc) (r, c)) →
      find_text b s (some (lr, lc)) = some (lr, lc) ∧
      find_text b s (some (lr, lc + 1)) = some (fr, fc)) ∧
    (∀ start, (∀ r c, ¬ occursAt b.lines r c s) → find_text b s start = none) := by
  constructor
  · intro lr lc fr fc hlo hmax hfo hmin
    have hlr : lr < b.lines.length := occursAt_row_lt _ _ _ _ hlo hs
    constructor
    · -- started exactly at the last occurrence
      have hfind : pyFind ((b.lines[lr]?).getD []) s lc = some lc := by
        obtain ⟨p, hp, hge, hle, hmatch⟩ :=
          pyFind_exists ((b.lines[lr]?).getD []) s lc lc (Nat.le_refl _) hlo
        have hpe : p = lc := by omega
        rw [hpe] at hp
        exact hp
      obtain ⟨k, hk⟩ : ∃ k, b.lines.length - lr = k + 1 := ⟨b.lines.length - lr - 1, by omega⟩
      simp only [find_text]
      rw [if_neg hs]
      show (match findFwdGo b.lines s lr lc lr (b.lines.length - lr) with
        | some pos => some pos
        | none => findWrapGo b.lines s lr lc 0 (lr + 1)) = some (lr, lc)
      rw [hk, findFwdGo_at_start b.lines s lr lc k hfind]
    · -- started one past the last occurrence: wraps to the first occurrence
      have hfrle : fr ≤ lr := by
        rcases hmin lr lc hlo with hlt | ⟨heq, -⟩
        · simp only at hlt
          omega
        · simp only at heq
          omega
      have hfcle : fr = lr → fc ≤ lc := by
        intro he
        rcases hmin lr lc hlo with hlt | ⟨-, hle⟩
        · simp only at hlt
          omega
        · exact hle
      simp only [find_text]
      rw [if_neg hs]
      show (match findFwdGo b.lines s lr (lc + 1) lr (b.lines.length - lr) with
        | some pos => some pos
        | none => findWrapGo b.lines s lr (lc + 1) 0 (lr + 1)) = some (fr, fc)
      rw [findFwdGo_none_past_last b.lines s lr lc hmax (b.lines.length - lr) lr
        (Nat.le_refl _)]
      exact findWrapGo_finds_first b.lines s lr lc fr fc hs hfo hmin hfrle hfcle
        (lr + 1) 0 (Nat.zero_le _) (by omega)
  · intro start hno
    exact find_text_none_of_no_occ b s start hno

/-- Witness for the amended C5 on the single line "x y x": the last
occurrence of "x" is at (0,4) and the first at (0,0). -/
theorem c5_find_wrap_amended_witness :
    ((['x'] : List Char) ≠ []) ∧
    (find_text { initialBuffer with lines := [['x', ' ', 'y', ' ', 'x']] }
        ['x'] (some (0, 4)) = some (0, 4) ∧
     find_text { initialBuffer with lines := [['x', ' ', 'y', ' ', 'x']] }
        ['x'] (some (0, 4 + 1)) = some (0, 0)) ∧
    find_text { initialBuffer with lines := [['x', ' ', 'y', ' ', 'x']] }
        ['q'] (some (0, 2)) = none :=
  ⟨by decide,
    (c5_find_wrap_amended { initialBuffer with lines := [['x', ' ', 'y', ' ', 'x']] }
        ['x'] (by decide)).1 0 4 0 0
      (by decide)
      (forall_occ_of_bounded _ ['x'] (by decide) (fun r c => posLe (r, c) (0, 4))
        (by decide))
      (by decide)
      (forall_occ_of_bounded _ ['x'] (by decide) (fun r c => posLe (0, 0) (r, c))
        (by decide)),
    (c5_find_wrap_amended { initialBuffer with lines := [['x', ' ', 'y', ' ', 'x']] }
        ['q'] (by decide)).2 (some (0, 2))
      (forall_occ_of_bounded _ ['q'] (by decide) (fun _ _ => False) (by decide))⟩
